import Mathlib

/-!
Verification development for the multibody dynamics solver
(octoberskyTW/Multibody-Dynamics-Solver).

The core pipeline lives in src/src/Dynamics_System.cpp (assembly of the
constrained equations of motion and the fixed-step RK4 integrator),
src/src/Body.cpp with src/include/Body.hpp (rigid-body state), and
src/src/Math.cpp (attitude conversions).  Armadillo vectors are embedded
as `List R` and Armadillo matrices as row-major `List (List R)` over an
abstract field `R` of scalars; the dimension checks Armadillo performs at
run time (join_rows / join_cols / matrix-vector product / elementwise
subtraction) are made explicit by returning `Option`.  Real-number
specific facts (the quaternion round trip of Math.cpp) are developed over
`ℝ` at the end of the file.
-/

namespace MBD

section ListVec

variable {R : Type} [Field R] {V : Type} [AddCommGroup V] [Module R V]

/-- Elementwise sum of two stacked vectors (arma operator+ on conforming vectors). -/
def addV (u v : List V) : List V := List.zipWith (· + ·) u v

/-- Scalar multiple of a stacked vector (arma scalar * vector). -/
def smulV (c : R) (u : List V) : List V := u.map (fun x => c • x)

@[simp] theorem addV_length (u v : List V) : (addV u v).length = min u.length v.length := by
  simp [addV]

@[simp] theorem smulV_length (c : R) (u : List V) : (smulV c u).length = u.length := by
  simp [smulV]

theorem addV_getD (u v : List V) (i : ℕ) (hu : i < u.length) (hv : i < v.length) :
    (addV u v).getD i 0 = u.getD i 0 + v.getD i 0 := by
  have h : i < (addV u v).length := by simp [addV_length]; omega
  rw [List.getD_eq_getElem _ _ h, List.getD_eq_getElem _ _ hu, List.getD_eq_getElem _ _ hv]
  simp [addV]

theorem smulV_getD (c : R) (u : List V) (i : ℕ) (hu : i < u.length) :
    (smulV c u).getD i 0 = c • u.getD i 0 := by
  have h : i < (smulV c u).length := by simp [smulV_length]; omega
  rw [List.getD_eq_getElem _ _ h, List.getD_eq_getElem _ _ hu]
  simp [smulV]

end ListVec

section Integrator

variable {R : Type} [Field R] {V : Type} [AddCommGroup V] [Module R V]

/--
One stage-state computation of the integrator: the loop
`for i: q_temp[i] = q[i] + c * k[i]` from Dynamics_Sys::solve
(src/src/Dynamics_System.cpp lines 99-111), where `c` is `0.5 * dt`
for the second and third stages and `dt` for the fourth.
-/
def stageState (q k : List V) (c : R) : List V :=
  (List.range q.length).map fun i => q.getD i 0 + c • k.getD i 0

/--
Dynamics_Sys::solve (src/src/Dynamics_System.cpp lines 89-122), with the
derivative evaluation `dynamic_function` abstracted as `f` (during one call
to solve, the persistent body fields it reads are fixed, so each call
`dynamic_function(q_temp, k)` writes `k = f q_temp`).  The final loop is
`q_d[i] = (1.0/6.0) * (k1[i] + 2.0*k2[i] + 2.0*k3[i] + k4[i]);`
`q[i] = q[i] + q_d[i] * dt;`.
-/
def Dynamics_Sys.solve (f : List V → List V) (dt : R) (q : List V) : List V :=
  let k1 := f q
  let k2 := f (stageState q k1 ((1 / 2 : R) * dt))
  let k3 := f (stageState q k2 ((1 / 2 : R) * dt))
  let k4 := f (stageState q k3 dt)
  (List.range q.length).map fun i =>
    q.getD i 0 +
      dt • (((1 : R) / 6) •
        (k1.getD i 0 + (2 : R) • k2.getD i 0 + (2 : R) • k3.getD i 0 + k4.getD i 0))

theorem stageState_eq_addV_smulV (q k : List V) (c : R) (hk : q.length ≤ k.length) :
    stageState q k c = addV q (smulV c k) := by
  apply List.ext_getElem
  · simp [stageState, addV_length, smulV_length]; omega
  · intro i h1 h2
    have hq : i < q.length := by simpa [stageState] using h1
    have hkl : i < k.length := lt_of_lt_of_le hq hk
    have hsm : i < (smulV c k).length := by simpa [smulV_length] using hkl
    have e1 : (stageState q k c)[i] = q.getD i 0 + c • k.getD i 0 := by
      simp [stageState]
    have e2 : (addV q (smulV c k))[i] = q.getD i 0 + (smulV c k).getD i 0 := by
      rw [← addV_getD q (smulV c k) i hq hsm, List.getD_eq_getElem _ _ h2]
    rw [e1, e2, smulV_getD c k i hkl]

/-- Pointwise form of the final combination loop of Dynamics_Sys::solve. -/
theorem rk4_combine (dt : R) (q k1 k2 k3 k4 : List V)
    (l1 : k1.length = q.length) (l2 : k2.length = q.length)
    (l3 : k3.length = q.length) (l4 : k4.length = q.length) :
    ((List.range q.length).map fun i =>
      q.getD i 0 +
        dt • (((1 : R) / 6) •
          (k1.getD i 0 + (2 : R) • k2.getD i 0 + (2 : R) • k3.getD i 0 + k4.getD i 0))) =
    addV q (smulV (dt / 6)
      (addV (addV k1 (smulV (2 : R) k2)) (addV (smulV (2 : R) k3) k4))) := by
  apply List.ext_getElem
  · simp [addV_length, smulV_length, l1, l2, l3, l4]
  · intro i h1 h2
    have hq : i < q.length := by simpa using h1
    have hk1 : i < k1.length := by omega
    have hk2 : i < k2.length := by omega
    have hk3 : i < k3.length := by omega
    have hk4 : i < k4.length := by omega
    have hS1 : i < (addV k1 (smulV (2 : R) k2)).length := by
      simp [addV_length, smulV_length]; omega
    have hS2 : i < (addV (smulV (2 : R) k3) k4).length := by
      simp [addV_length, smulV_length]; omega
    have hS : i < (addV (addV k1 (smulV (2 : R) k2)) (addV (smulV (2 : R) k3) k4)).length := by
      simp [addV_length, smulV_length]; omega
    have hsm : i < (smulV (dt / 6)
        (addV (addV k1 (smulV (2 : R) k2)) (addV (smulV (2 : R) k3) k4))).length := by
      simpa [smulV_length] using hS
    have eL : (((List.range q.length).map fun i =>
        q.getD i 0 +
          dt • (((1 : R) / 6) •
            (k1.getD i 0 + (2 : R) • k2.getD i 0 + (2 : R) • k3.getD i 0 + k4.getD i 0))))[i] =
        q.getD i 0 +
          dt • (((1 : R) / 6) •
            (k1.getD i 0 + (2 : R) • k2.getD i 0 + (2 : R) • k3.getD i 0 + k4.getD i 0)) := by
      simp
    have eR : (addV q (smulV (dt / 6)
        (addV (addV k1 (smulV (2 : R) k2)) (addV (smulV (2 : R) k3) k4))))[i] =
        q.getD i 0 + (dt / 6) •
          ((k1.getD i 0 + (2 : R) • k2.getD i 0) + ((2 : R) • k3.getD i 0 + k4.getD i 0)) := by
      rw [show (addV q (smulV (dt / 6)
          (addV (addV k1 (smulV (2 : R) k2)) (addV (smulV (2 : R) k3) k4))))[i] =
          (addV q (smulV (dt / 6)
            (addV (addV k1 (smulV (2 : R) k2)) (addV (smulV (2 : R) k3) k4)))).getD i 0 from
        (List.getD_eq_getElem _ 0 h2).symm]
      rw [addV_getD _ _ i hq hsm, smulV_getD _ _ i hS, addV_getD _ _ i hS1 hS2,
        addV_getD _ _ i hk1 (by simpa [smulV_length] using hk2),
        addV_getD _ _ i (by simpa [smulV_length] using hk3) hk4,
        smulV_getD _ _ i hk2, smulV_getD _ _ i hk3]
    rw [eL, eR, smul_smul, mul_one_div]
    ring_nf
    rw [add_assoc]

/--
C1: one call to Dynamics_Sys::solve performs exactly one fixed-step explicit
RK4 step over the stacked generalized state: with the derivative function f
evaluated at the stage points state, state + (dt/2)k1, state + (dt/2)k2,
state + dt k3 (in that order), the new state is
state + (dt/6)(k1 + 2 k2 + 2 k3 + k4); there is no substepping and no
adaptive step control.
-/
theorem C1_solve_is_one_rk4_step (f : List V → List V) (dt : R) (q k1 k2 k3 k4 : List V)
    (hf : ∀ s : List V, (f s).length = s.length)
    (h1 : k1 = f q)
    (h2 : k2 = f (addV q (smulV (dt / 2) k1)))
    (h3 : k3 = f (addV q (smulV (dt / 2) k2)))
    (h4 : k4 = f (addV q (smulV dt k3))) :
    Dynamics_Sys.solve f dt q =
      addV q (smulV (dt / 6)
        (addV (addV k1 (smulV (2 : R) k2)) (addV (smulV (2 : R) k3) k4))) := by
  have l1 : k1.length = q.length := by rw [h1]; exact hf q
  have l2 : k2.length = q.length := by
    rw [h2, hf]; simp [addV_length, smulV_length, l1]
  have l3 : k3.length = q.length := by
    rw [h3, hf]; simp [addV_length, smulV_length, l2]
  have l4 : k4.length = q.length := by
    rw [h4, hf]; simp [addV_length, smulV_length, l3]
  have half : ((1 : R) / 2) * dt = dt / 2 := by ring
  have s2 : stageState q (f q) ((1 / 2 : R) * dt) = addV q (smulV (dt / 2) k1) := by
    rw [← h1, stageState_eq_addV_smulV _ _ _ (le_of_eq l1.symm), half]
  have s3 : stageState q k2 ((1 / 2 : R) * dt) = addV q (smulV (dt / 2) k2) := by
    rw [stageState_eq_addV_smulV _ _ _ (le_of_eq l2.symm), half]
  have s4 : stageState q k3 dt = addV q (smulV dt k3) := by
    rw [stageState_eq_addV_smulV _ _ _ (le_of_eq l3.symm)]
  show ((List.range q.length).map fun i =>
      q.getD i 0 + dt • (((1 : R) / 6) •
        ((f q).getD i 0 +
          (2 : R) • (f (stageState q (f q) ((1 / 2 : R) * dt))).getD i 0 +
          (2 : R) • (f (stageState q
            (f (stageState q (f q) ((1 / 2 : R) * dt))) ((1 / 2 : R) * dt))).getD i 0 +
          (f (stageState q (f (stageState q
            (f (stageState q (f q) ((1 / 2 : R) * dt))) ((1 / 2 : R) * dt))) dt)).getD i 0))) = _
  rw [s2, ← h1, ← h2, s3, ← h3, s4, ← h4]
  exact rk4_combine dt q k1 k2 k3 k4 l1 l2 l3 l4

/-- Witness for C1 at a concrete system: R = ℚ, V = ℚ, the derivative map
sending every state to the zero vector, dt = 6, q = [1]. -/
theorem C1_witness :
    Dynamics_Sys.solve (fun s : List ℚ => s.map fun _ => 0) (6 : ℚ) [1] =
      addV [1] (smulV ((6 : ℚ) / 6)
        (addV (addV [0] (smulV (2 : ℚ) [0])) (addV (smulV (2 : ℚ) [0]) [0]))) :=
  C1_solve_is_one_rk4_step (fun s : List ℚ => s.map fun _ => 0) (6 : ℚ) [1] [0] [0] [0] [0]
    (fun s => by simp) (by norm_num [addV, smulV]) (by norm_num [addV, smulV])
    (by norm_num [addV, smulV]) (by norm_num [addV, smulV])

end Integrator

section Matrices

variable {R : Type} [Field R]

/-- Row-major embedding of an arma::mat. -/
abbrev Mat (R : Type) := List (List R)

/-- Number of rows (arma n_rows). -/
def matRows (A : Mat R) : ℕ := A.length

/-- Number of columns (arma n_cols), read off the first row. -/
def matCols (A : Mat R) : ℕ := (A.headD []).length

/-- Well-formedness: the row-major list represents an r x c matrix. -/
def IsMat (A : Mat R) (r c : ℕ) : Prop := A.length = r ∧ ∀ row ∈ A, row.length = c

/-- Entry (i, j), with 0 outside the stored data. -/
def matEntry (A : Mat R) (i j : ℕ) : R := (A.getD i []).getD j 0

/-- arma::zeros r x c. -/
def zerosM (r c : ℕ) : Mat R := List.replicate r (List.replicate c (0 : R))

/-- arma .eye(n, n). -/
def eyeM (n : ℕ) : Mat R :=
  (List.range n).map fun i => (List.range n).map fun j => if i = j then (1 : R) else 0

/-- arma::join_rows: horizontal concatenation; run-time abort (none) unless the
row counts agree. -/
def join_rows (A B : Mat R) : Option (Mat R) :=
  if matRows A = matRows B then some (List.zipWith (· ++ ·) A B) else none

/-- arma::join_cols: vertical concatenation; run-time abort (none) unless the
column counts agree (an empty operand is always accepted). -/
def join_cols (A B : Mat R) : Option (Mat R) :=
  if matCols A = matCols B ∨ matRows A = 0 ∨ matRows B = 0 then some (A ++ B) else none

/-- arma::trans. -/
def transM (A : Mat R) : Mat R :=
  (List.range (matCols A)).map fun j => A.map fun row => row.getD j 0

/-- Scalar times matrix. -/
def smulM (c : R) (A : Mat R) : Mat R := A.map (List.map (fun x => c * x))

/-- Dot product of two rows (truncating at the shorter). -/
def dotL (u v : List R) : R := (List.zipWith (· * ·) u v).sum

/-- Matrix-vector product, total version. -/
def mulVecT (A : Mat R) (v : List R) : List R := A.map fun row => dotL row v

/-- arma matrix * column-vector; run-time abort (none) unless n_cols matches
the vector length. -/
def mulVecM (A : Mat R) (v : List R) : Option (List R) :=
  if matCols A = v.length then some (mulVecT A v) else none

/-- Elementwise difference of two vectors, total version. -/
def vsubT (u v : List R) : List R := List.zipWith (· - ·) u v

/-- arma vector subtraction; run-time abort (none) unless the lengths agree. -/
def vsub (u v : List R) : Option (List R) :=
  if u.length = v.length then some (vsubT u v) else none

theorem IsMat_zerosM (r c : ℕ) : IsMat (zerosM (R := R) r c) r c := by
  constructor
  · simp [zerosM]
  · intro row hrow
    rw [List.eq_of_mem_replicate hrow]
    simp

theorem IsMat_eyeM (n : ℕ) : IsMat (eyeM (R := R) n) n n := by
  constructor
  · simp [eyeM]
  · intro row hrow
    simp only [eyeM, List.mem_map] at hrow
    obtain ⟨i, _, rfl⟩ := hrow
    simp

theorem matCols_of_IsMat {A : Mat R} {r c : ℕ} (h : IsMat A r c) (hr : 0 < r) :
    matCols A = c := by
  obtain ⟨hlen, hrow⟩ := h
  cases A with
  | nil => simp at hlen; omega
  | cons row rest => simpa [matCols] using hrow row (List.mem_cons_self _ _)

theorem IsMat_zipWith_append {A B : Mat R} {r c₁ c₂ : ℕ}
    (hA : IsMat A r c₁) (hB : IsMat B r c₂) :
    IsMat (List.zipWith (· ++ ·) A B) r (c₁ + c₂) := by
  obtain ⟨hAl, hArow⟩ := hA
  obtain ⟨hBl, hBrow⟩ := hB
  constructor
  · simp [hAl, hBl]
  · intro row hrow
    rw [List.mem_iff_getElem] at hrow
    obtain ⟨i, hi, rfl⟩ := hrow
    have hiA : i < A.length := by simp at hi; omega
    have hiB : i < B.length := by simp at hi; omega
    rw [List.getElem_zipWith]
    rw [List.length_append, hArow _ (List.getElem_mem hiA), hBrow _ (List.getElem_mem hiB)]

theorem IsMat_append {A B : Mat R} {r₁ r₂ c : ℕ}
    (hA : IsMat A r₁ c) (hB : IsMat B r₂ c) :
    IsMat (A ++ B) (r₁ + r₂) c := by
  obtain ⟨hAl, hArow⟩ := hA
  obtain ⟨hBl, hBrow⟩ := hB
  refine ⟨by simp [hAl, hBl], ?_⟩
  intro row hrow
  rcases List.mem_append.1 hrow with h | h
  · exact hArow row h
  · exact hBrow row h

theorem join_rows_eq {A B : Mat R} (h : A.length = B.length) :
    join_rows A B = some (List.zipWith (· ++ ·) A B) := by
  simp [join_rows, matRows, h]

theorem join_cols_eq {A B : Mat R} (h : matCols A = matCols B) :
    join_cols A B = some (A ++ B) := by
  simp [join_cols, h]

theorem getD_replicate_ite {α : Type} (a d : α) (r i : ℕ) :
    (List.replicate r a).getD i d = if i < r then a else d := by
  rcases lt_or_ge i r with h | h
  · have h2 : i < (List.replicate r a).length := by simpa using h
    rw [List.getD_eq_getElem _ _ h2, List.getElem_replicate, if_pos h]
  · rw [List.getD_eq_default _ _ (by simpa using h), if_neg (by omega)]

theorem getD_map_range {α : Type} (f : ℕ → α) (d : α) (n i : ℕ) :
    ((List.range n).map f).getD i d = if i < n then f i else d := by
  rcases lt_or_ge i n with h | h
  · have h2 : i < ((List.range n).map f).length := by simpa using h
    rw [List.getD_eq_getElem _ _ h2, List.getElem_map, List.getElem_range, if_pos h]
  · rw [List.getD_eq_default _ _ (by simpa using h), if_neg (by omega)]

theorem matEntry_zerosM (r c i j : ℕ) : matEntry (zerosM (R := R) r c) i j = 0 := by
  unfold matEntry zerosM
  rw [getD_replicate_ite]
  rcases lt_or_ge i r with hi | hi
  · rw [if_pos hi, getD_replicate_ite]
    rcases lt_or_ge j c with hj | hj
    · rw [if_pos hj]
    · rw [if_neg (by omega)]
  · rw [if_neg (by omega)]
    simp

theorem matEntry_eyeM (n i j : ℕ) :
    matEntry (eyeM (R := R) n) i j = if i = j ∧ i < n then 1 else 0 := by
  unfold matEntry eyeM
  rw [getD_map_range]
  rcases lt_or_ge i n with hi | hi
  · rw [if_pos hi, getD_map_range]
    rcases lt_or_ge j n with hj | hj
    · rw [if_pos hj]
      by_cases hij : i = j <;> simp [hij, hi, hj]
    · rw [if_neg (by omega)]
      have hne : ¬(i = j ∧ i < n) := by rintro ⟨rfl, hx⟩; omega
      rw [if_neg hne]
  · rw [if_neg (by omega)]
    have hne : ¬(i = j ∧ i < n) := by rintro ⟨rfl, hx⟩; omega
    rw [if_neg hne]
    simp

theorem matEntry_of_row_ge {A : Mat R} {r c : ℕ} (h : IsMat A r c) {i : ℕ} (hi : r ≤ i)
    (j : ℕ) : matEntry A i j = 0 := by
  unfold matEntry
  rw [show A.getD i [] = [] from List.getD_eq_default _ _ (by rw [h.1]; omega)]
  simp

theorem matEntry_of_col_ge {A : Mat R} {r c : ℕ} (h : IsMat A r c) (i : ℕ) {j : ℕ}
    (hj : c ≤ j) : matEntry A i j = 0 := by
  unfold matEntry
  rcases lt_or_ge i A.length with hi | hi
  · rw [show A.getD i [] = A[i] from List.getD_eq_getElem _ _ hi]
    rw [List.getD_eq_default _ _ (by rw [h.2 _ (List.getElem_mem hi)]; omega)]
  · rw [show A.getD i [] = [] from List.getD_eq_default _ _ hi]
    simp

theorem matEntry_append (A B : Mat R) (i j : ℕ) :
    matEntry (A ++ B) i j =
      if i < A.length then matEntry A i j else matEntry B (i - A.length) j := by
  unfold matEntry
  rcases lt_or_ge i A.length with hi | hi
  · rw [List.getD_append _ _ _ _ hi, if_pos hi]
  · rw [List.getD_append_right _ _ _ _ hi, if_neg (by omega)]

theorem matEntry_zipWith_append {A B : Mat R} {r c₁ c₂ : ℕ}
    (hA : IsMat A r c₁) (hB : IsMat B r c₂) {i : ℕ} (hi : i < r) (j : ℕ) :
    matEntry (List.zipWith (· ++ ·) A B) i j =
      if j < c₁ then matEntry A i j else matEntry B i (j - c₁) := by
  have hiA : i < A.length := by rw [hA.1]; omega
  have hiB : i < B.length := by rw [hB.1]; omega
  have hiZ : i < (List.zipWith (· ++ ·) A B).length := by
    rw [List.length_zipWith]; omega
  unfold matEntry
  rw [List.getD_eq_getElem _ _ hiZ, List.getElem_zipWith]
  rw [show A.getD i [] = A[i] from List.getD_eq_getElem _ _ hiA]
  rw [show B.getD i [] = B[i] from List.getD_eq_getElem _ _ hiB]
  have hlenA : A[i].length = c₁ := hA.2 _ (List.getElem_mem hiA)
  rcases lt_or_ge j c₁ with hj | hj
  · rw [List.getD_append _ _ _ _ (by omega), if_pos hj]
  · rw [List.getD_append_right _ _ _ _ (by omega), if_neg (by omega), hlenA]

theorem mulVecT_getD {A : Mat R} {r c : ℕ} (hA : IsMat A r c) {i : ℕ} (hi : i < r) :
    (mulVecT A v).getD i 0 = dotL (A.getD i []) v := by
  have hiA : i < A.length := by rw [hA.1]; omega
  have hiM : i < (mulVecT A v).length := by simp [mulVecT]; omega
  rw [List.getD_eq_getElem _ _ hiM]
  unfold mulVecT
  rw [List.getElem_map]
  rw [show A.getD i [] = A[i] from List.getD_eq_getElem _ _ hiA]

theorem vsubT_getD (u v : List R) (i : ℕ) (hu : i < u.length) (hv : i < v.length) :
    (vsubT u v).getD i 0 = u.getD i 0 - v.getD i 0 := by
  have h : i < (vsubT u v).length := by simp [vsubT]; omega
  rw [List.getD_eq_getElem _ _ h]
  unfold vsubT
  rw [List.getElem_zipWith]
  rw [show u.getD i 0 = u[i] from List.getD_eq_getElem _ _ hu]
  rw [show v.getD i 0 = v[i] from List.getD_eq_getElem _ _ hv]

theorem dotL_eq_sum (u v : List R) :
    dotL u v = ∑ j ∈ Finset.range (min u.length v.length), u.getD j 0 * v.getD j 0 := by
  induction u generalizing v with
  | nil => simp [dotL]
  | cons a u ih =>
    cases v with
    | nil => simp [dotL]
    | cons b v =>
      have : dotL (a :: u) (b :: v) = a * b + dotL u v := by
        simp [dotL]
      rw [this, ih v]
      rw [show min (a :: u).length (b :: v).length = min u.length v.length + 1 by
        simp [Nat.succ_min_succ]]
      rw [Finset.sum_range_succ']
      simp [add_comm]

theorem dotL_basis_row {u v : List R} {r : ℕ} (hr : r < v.length)
    (hlen : v.length ≤ u.length)
    (hu : ∀ j, u.getD j 0 = if r = j then 1 else 0) :
    dotL u v = v.getD r 0 := by
  rw [dotL_eq_sum]
  have hmin : min u.length v.length = v.length := by omega
  rw [hmin]
  rw [Finset.sum_congr rfl (fun j _ => by rw [hu j])]
  simp only [ite_mul, one_mul, zero_mul]
  rw [Finset.sum_ite_eq (Finset.range v.length) r (fun j => v.getD j 0)]
  rw [if_pos (Finset.mem_range.2 hr)]

theorem smulM_map {A : Mat R} {r c : ℕ} (hA : IsMat A r c) :
    IsMat (smulM (2 : R) A) r c := by
  constructor
  · simp [smulM, hA.1]
  · intro row hrow
    simp only [smulM, List.mem_map] at hrow
    obtain ⟨row0, hmem, rfl⟩ := hrow
    simp [hA.2 row0 hmem]

theorem dotL_smul_left (c : R) (u v : List R) :
    dotL (u.map (fun x => c * x)) v = c * dotL u v := by
  induction u generalizing v with
  | nil => simp [dotL]
  | cons a u ih =>
    cases v with
    | nil => simp [dotL]
    | cons b v =>
      have h1 : dotL ((a :: u).map (fun x => c * x)) (b :: v) =
          c * a * b + dotL (u.map (fun x => c * x)) v := by simp [dotL]
      have h2 : dotL (a :: u) (b :: v) = a * b + dotL u v := by simp [dotL]
      rw [h1, h2, ih v]
      ring

theorem mulVecT_smulM (c : R) (A : Mat R) (v : List R) :
    mulVecT (smulM c A) v = smulV c (mulVecT A v) := by
  unfold mulVecT smulM smulV
  rw [List.map_map, List.map_map]
  apply List.map_congr_left
  intro row _
  simp only [Function.comp]
  rw [dotL_smul_left]
  rw [smul_eq_mul]

end Matrices

section Bodies

variable {R : Type} [Field R]

/-- The trigonometric functions of the external math library, abstracted. -/
structure SinCos (R : Type) where
  sin : R → R
  cos : R → R

/--
build_psi_tht_phi_TM (src/src/Math.cpp lines 7-26): the closed-form 3-2-1
(yaw-pitch-roll) Euler transformation matrix.  Entry (r, c) is AMAT(r, c)
of the source.
-/
def build_psi_tht_phi_TM (sc : SinCos R) (psi tht phi : R) : Mat R :=
  [[sc.cos psi * sc.cos tht,
    sc.sin psi * sc.cos tht,
    -sc.sin tht],
   [sc.cos psi * sc.sin tht * sc.sin phi - sc.sin psi * sc.cos phi,
    sc.sin psi * sc.sin tht * sc.sin phi + sc.cos psi * sc.cos phi,
    sc.cos tht * sc.sin phi],
   [sc.cos psi * sc.sin tht * sc.cos phi + sc.sin psi * sc.sin phi,
    sc.sin psi * sc.sin tht * sc.cos phi - sc.cos psi * sc.sin phi,
    sc.cos tht * sc.cos phi]]

/-- Tag distinguishing the two Body subclasses of src/include/Body.hpp. -/
inductive BodyKind : Type where
  | ground : BodyKind
  | mobilized : BodyKind
deriving DecidableEq

/-- The protected state of class Body (src/include/Body.hpp lines 33-46). -/
structure BodyRec (R : Type) where
  kind : BodyKind
  POSITION : List R
  VELOCITY : List R
  ACCELERATION : List R
  ANGLE : List R
  ANGLE_VEL : List R
  ANGLE_ACC : List R
  M : Mat R
  FORCE : List R
  TORQUE : List R
  TBI : Mat R
  TBI_Q : List R
  TBID_Q : List R
deriving DecidableEq

instance : Inhabited (BodyRec R) :=
  ⟨⟨BodyKind.ground, [], [], [], [], [], [], [], [], [], [], [], []⟩⟩

/--
The virtual Body::update dispatch: Ground::update is the empty inline body of
src/include/Body.hpp lines 54-55; Mobilized_body::update is
src/src/Body.cpp lines 55-64, which overwrites POSITION, VELOCITY, ANGLE and
ANGLE_VEL with its four arguments and then recomputes
TBI = build_psi_tht_phi_TM(ANGLE(2), ANGLE(1), ANGLE(0)).
-/
def BodyRec.update (sc : SinCos R) (b : BodyRec R)
    (PosIn VelIn AttIn ANG_VEL_In : List R) : BodyRec R :=
  match b.kind with
  | BodyKind.ground => b
  | BodyKind.mobilized =>
    { b with
      POSITION := PosIn
      VELOCITY := VelIn
      ANGLE := AttIn
      ANGLE_VEL := ANG_VEL_In
      TBI := build_psi_tht_phi_TM sc (AttIn.getD 2 0) (AttIn.getD 1 0) (AttIn.getD 0 0) }

/--
Modelled from the spec: the position-taking Ground constructor.
src/include/Body.hpp line 52 declares Ground(arma::vec PosIn), but no such
definition is under src/ (src/src/Body.cpp lines 27-34 define a parameterless
Ground constructor that never stores a position); per the spec a Ground body is
fixed at the caller-supplied reference position.  All other fields follow the
present code, Body::Body (src/src/Body.cpp lines 3-14: every kinematic field
zeroed, M the 6x6 identity, TBI_Q and TBID_Q left as empty default vectors)
and Ground::Ground (lines 27-34: unit mass/inertia diagonal, i.e. the identity
M again, and TBI recomputed from the zero orientation triple).
-/
def Ground_construct (sc : SinCos R) (PosIn : List R) : BodyRec R :=
  { kind := BodyKind.ground
    POSITION := PosIn
    VELOCITY := [0, 0, 0]
    ACCELERATION := [0, 0, 0]
    ANGLE := [0, 0, 0]
    ANGLE_VEL := [0, 0, 0]
    ANGLE_ACC := [0, 0, 0]
    M := eyeM 6
    FORCE := [0, 0, 0]
    TORQUE := [0, 0, 0]
    TBI := build_psi_tht_phi_TM sc 0 0 0
    TBI_Q := []
    TBID_Q := [] }

/--
The per-evaluation outputs of class Joint that Dynamics_Sys::Cal_Constraints
reads through get_Cq, get_GAMMA and get_CONSTRAINT (Joint.cpp itself is not
part of the analysed sources; the assembler treats these values as opaque).
-/
structure JointRec (R : Type) where
  Cq : Mat R
  GAMMA : List R
  CONSTRAINT : List R
deriving DecidableEq

/-- Field lengths of a body whose arma vectors are 3-vectors and whose mass
matrix is 6x6, as produced by the Body constructors. -/
def BodyWF (b : BodyRec R) : Prop :=
  b.POSITION.length = 3 ∧ b.ANGLE.length = 3 ∧ b.VELOCITY.length = 3 ∧
    b.ANGLE_VEL.length = 3 ∧ b.FORCE.length = 3 ∧ b.TORQUE.length = 3 ∧ IsMat b.M 6 6

/-- Field dimensions of a joint as described by the spec: a 3x12 Jacobian
block, a Gamma 3-vector and a residual 3-vector. -/
def JointWF (j : JointRec R) : Prop :=
  IsMat j.Cq 3 12 ∧ j.GAMMA.length = 3 ∧ j.CONSTRAINT.length = 3

instance (b : BodyRec R) : Decidable (BodyWF b) := by
  unfold BodyWF IsMat; infer_instance

instance (j : JointRec R) : Decidable (JointWF j) := by
  unfold JointWF IsMat; infer_instance

end Bodies

section Assembler

variable {R : Type} [Field R]

/--
One iteration of the SYS_Cq loop of Dynamics_Sys::Cal_Constraints
(src/src/Dynamics_System.cpp lines 27-29):
SYS_Cq = join_cols(join_rows(SYS_Cq, zeros(6 + i*3, 6)),
                   join_rows(zeros(3, 6*i), Cq_i)).
-/
def sysCqStep (i : ℕ) (acc cq : Mat R) : Option (Mat R) := do
  let top ← join_rows acc (zerosM (6 + i * 3) 6)
  let bot ← join_rows (zerosM 3 (6 * i)) cq
  join_cols top bot

/-- The SYS_Cq loop over all joints, carrying the loop counter. -/
def sysCqFold : ℕ → Mat R → List (Mat R) → Option (Mat R)
  | _, acc, [] => some acc
  | i, acc, cq :: rest => do sysCqFold (i + 1) (← sysCqStep i acc cq) rest

/--
One iteration of the SYS_M loop of Dynamics_Sys::Cal_Constraints
(src/src/Dynamics_System.cpp lines 36-39):
SYS_M = join_cols(join_rows(SYS_M, zeros(6*i, 6)),
                  join_rows(zeros(6, 6*i), M_i)).
-/
def sysMStep (i : ℕ) (acc Mi : Mat R) : Option (Mat R) := do
  let top ← join_rows acc (zerosM (6 * i) 6)
  let bot ← join_rows (zerosM 6 (6 * i)) Mi
  join_cols top bot

/-- The SYS_M loop over the bodies after the first, carrying the loop counter. -/
def sysMFold : ℕ → Mat R → List (Mat R) → Option (Mat R)
  | _, acc, [] => some acc
  | i, acc, Mi :: rest => do sysMFold (i + 1) (← sysMStep i acc Mi) rest

/-- SYS_GAMMA before stabilization: a zero 6-vector (the ground pin block)
followed by every joint's get_GAMMA() (lines 22 and 31). -/
def gammaRawOf (joints : List (JointRec R)) : List R :=
  List.replicate 6 (0 : R) ++ joints.flatMap JointRec.GAMMA

/-- SYS_C: body 0's position and angle stacked, followed by every joint's
get_CONSTRAINT() (lines 25 and 33). -/
def sysCOf (bodies : List (BodyRec R)) (joints : List (JointRec R)) : List R :=
  ((bodies.getD 0 default).POSITION ++ (bodies.getD 0 default).ANGLE) ++
    joints.flatMap JointRec.CONSTRAINT

/-- tmp_vec of lines 41-46: every body's [force; torque] stacked. -/
def qforceOf (bodies : List (BodyRec R)) : List R :=
  bodies.flatMap fun b => b.FORCE ++ b.TORQUE

/-- tmp_vec2 of lines 48-53: every body's [velocity; angular velocity] stacked. -/
def qdotOf (bodies : List (BodyRec R)) : List R :=
  bodies.flatMap fun b => b.VELOCITY ++ b.ANGLE_VEL

/-- The matrices and vectors Dynamics_Sys::Cal_Constraints stores. -/
structure SysOut (R : Type) where
  SYS_Cq : Mat R
  SYS_GAMMA : List R
  SYS_C : List R
  SYS_M : Mat R
  SYS_RHS : List R
  SYS_MAT : Mat R
deriving DecidableEq

/--
Dynamics_Sys::Cal_Constraints (src/src/Dynamics_System.cpp lines 19-61).
The SYS_Cq / SYS_GAMMA / SYS_C loop is split into sysCqFold, gammaRawOf and
sysCOf (the three accumulate independently), the SYS_M loop is sysMFold, and
the Baumgarte line 55 is SYS_GAMMA = SYS_GAMMA - 2.0 * SYS_Cq * tmp_vec2 -
SYS_C.  A none records an Armadillo dimension-mismatch abort.
-/
def Cal_Constraints (bodies : List (BodyRec R)) (joints : List (JointRec R)) :
    Option (SysOut R) := do
  let cq ← sysCqFold 0 (eyeM 6) (joints.map JointRec.Cq)
  let m ← sysMFold 1 (eyeM 6) ((bodies.drop 1).map BodyRec.M)
  let stab ← mulVecM (smulM (2 : R) cq) (qdotOf bodies)
  let g1 ← vsub (gammaRawOf joints) stab
  let gamma ← vsub g1 (sysCOf bodies joints)
  let top ← join_rows m (transM cq)
  let bot ← join_rows cq (zerosM (matRows cq) (matRows cq))
  let mat ← join_cols top bot
  some ⟨cq, gamma, sysCOf bodies joints, m, qforceOf bodies ++ gamma, mat⟩

end Assembler

section AssemblerLemmas

variable {R : Type} [Field R]

theorem length_flatMap_const {α β : Type} (l : List α) (f : α → List β) (k : ℕ)
    (h : ∀ a ∈ l, (f a).length = k) : (l.flatMap f).length = k * l.length := by
  induction l with
  | nil => simp
  | cons a rest ih =>
    simp only [List.flatMap_cons, List.length_append, List.length_cons]
    rw [h a (List.mem_cons_self _ _), ih (fun x hx => h x (List.mem_cons_of_mem _ hx))]
    ring

theorem sysCqStep_spec {i : ℕ} {acc cq : Mat R}
    (hacc : IsMat acc (6 + 3 * i) (6 + 6 * i)) (hcq : IsMat cq 3 12) :
    sysCqStep i acc cq =
      some (List.zipWith (· ++ ·) acc (zerosM (6 + i * 3) 6) ++
        List.zipWith (· ++ ·) (zerosM 3 (6 * i)) cq) ∧
    IsMat (List.zipWith (· ++ ·) acc (zerosM (6 + i * 3) 6) ++
        List.zipWith (· ++ ·) (zerosM 3 (6 * i)) cq)
      (6 + 3 * (i + 1)) (6 + 6 * (i + 1)) ∧
    (∀ r j, r < 6 + 3 * i →
      matEntry (List.zipWith (· ++ ·) acc (zerosM (6 + i * 3) 6) ++
        List.zipWith (· ++ ·) (zerosM 3 (6 * i)) cq) r j = matEntry acc r j) ∧
    (∀ s j, s < 3 →
      matEntry (List.zipWith (· ++ ·) acc (zerosM (6 + i * 3) 6) ++
        List.zipWith (· ++ ·) (zerosM 3 (6 * i)) cq) (6 + 3 * i + s) j =
        if 6 * i ≤ j ∧ j < 6 * i + 12 then matEntry cq s (j - 6 * i) else 0) := by
  have hz1 : IsMat (zerosM (R := R) (6 + i * 3) 6) (6 + 3 * i) 6 := by
    have h36 : 6 + i * 3 = 6 + 3 * i := by ring
    rw [← h36]
    exact IsMat_zerosM _ _
  have hz2 : IsMat (zerosM (R := R) 3 (6 * i)) 3 (6 * i) := IsMat_zerosM _ _
  have htop : IsMat (List.zipWith (· ++ ·) acc (zerosM (6 + i * 3) 6))
      (6 + 3 * i) (6 + 6 * i + 6) := IsMat_zipWith_append hacc hz1
  have hbot0 : IsMat (List.zipWith (· ++ ·) (zerosM 3 (6 * i)) cq) 3 (6 * i + 12) :=
    IsMat_zipWith_append hz2 hcq
  have hcols : 6 * i + 12 = 6 + 6 * i + 6 := by ring
  have hbot : IsMat (List.zipWith (· ++ ·) (zerosM 3 (6 * i)) cq) 3 (6 + 6 * i + 6) :=
    hcols ▸ hbot0
  have heq : sysCqStep i acc cq =
      some (List.zipWith (· ++ ·) acc (zerosM (6 + i * 3) 6) ++
        List.zipWith (· ++ ·) (zerosM 3 (6 * i)) cq) := by
    unfold sysCqStep
    rw [join_rows_eq (by rw [hacc.1]; simp [zerosM]; ring)]
    rw [join_rows_eq (by simp [zerosM, hcq.1])]
    simp only [Option.bind_some, Option.pure_def, Option.bind_eq_bind]
    exact join_cols_eq (by
      rw [matCols_of_IsMat htop (by omega), matCols_of_IsMat hbot (by omega)])
  refine ⟨heq, ?_, ?_, ?_⟩
  · have := IsMat_append htop hbot
    have h1 : 6 + 3 * i + 3 = 6 + 3 * (i + 1) := by ring
    have h2 : 6 + 6 * i + 6 = 6 + 6 * (i + 1) := by ring
    rw [h1, h2] at this
    exact this
  · intro r j hr
    rw [matEntry_append, if_pos (by rw [List.length_zipWith, hacc.1, hz1.1]; omega)]
    rw [matEntry_zipWith_append hacc hz1 hr]
    rcases lt_or_ge j (6 + 6 * i) with hj | hj
    · rw [if_pos hj]
    · rw [if_neg (by omega), matEntry_zerosM,
        matEntry_of_col_ge hacc r hj]
  · intro s j hs
    have hlen : (List.zipWith (· ++ ·) acc (zerosM (R := R) (6 + i * 3) 6)).length =
        6 + 3 * i := by
      rw [List.length_zipWith, hacc.1, hz1.1]; omega
    rw [matEntry_append, if_neg (by omega), hlen]
    have hidx : 6 + 3 * i + s - (6 + 3 * i) = s := by omega
    rw [hidx]
    rw [matEntry_zipWith_append hz2 hcq hs]
    rcases lt_or_ge j (6 * i) with hj | hj
    · rw [if_pos hj, if_neg (by omega), matEntry_zerosM]
    · rw [if_neg (by omega)]
      rcases lt_or_ge j (6 * i + 12) with hj2 | hj2
      · rw [if_pos (by omega)]
      · rw [if_neg (by omega), matEntry_of_col_ge hcq s (by omega)]

theorem sysCqFold_spec (cqs : List (Mat R)) :
    ∀ (i : ℕ) (acc : Mat R), IsMat acc (6 + 3 * i) (6 + 6 * i) →
      (∀ cq ∈ cqs, IsMat cq 3 12) →
      ∃ res, sysCqFold i acc cqs = some res ∧
        IsMat res (6 + 3 * (i + cqs.length)) (6 + 6 * (i + cqs.length)) ∧
        (∀ r j, r < 6 + 3 * i → matEntry res r j = matEntry acc r j) ∧
        (∀ k, k < cqs.length → ∀ r j, r < 3 →
          matEntry res (6 + 3 * (i + k) + r) j =
            if 6 * (i + k) ≤ j ∧ j < 6 * (i + k) + 12 then
              matEntry (cqs.getD k []) r (j - 6 * (i + k)) else 0) := by
  induction cqs with
  | nil =>
    intro i acc hacc _
    refine ⟨acc, rfl, by simpa using hacc, fun r j _ => rfl, ?_⟩
    intro k hk
    simp at hk
  | cons cq rest ih =>
    intro i acc hacc hwf
    have hcq : IsMat cq 3 12 := hwf cq (List.mem_cons_self _ _)
    obtain ⟨hstepeq, hacc2, hpres, hblock⟩ := sysCqStep_spec hacc hcq
    obtain ⟨res, hfold, hres, hpres2, hblock2⟩ :=
      ih (i + 1) _ hacc2 (fun x hx => hwf x (List.mem_cons_of_mem _ hx))
    refine ⟨res, ?_, ?_, ?_, ?_⟩
    · show (sysCqStep i acc cq).bind (fun a => sysCqFold (i + 1) a rest) = some res
      rw [hstepeq]
      simpa using hfold
    · have h1 : i + 1 + rest.length = i + (rest.length + 1) := by omega
      rw [h1] at hres
      simpa using hres
    · intro r j hr
      rw [hpres2 r j (by omega), hpres r j hr]
    · intro k hk r j hr
      cases k with
      | zero =>
        have h0 : i + 0 = i := by omega
        rw [h0]
        rw [hpres2 _ j (by omega), hblock r j hr]
        simp
      | succ k2 =>
        have h1 : i + (k2 + 1) = (i + 1) + k2 := by omega
        rw [h1]
        have := hblock2 k2 (by simpa using hk) r j hr
        simpa using this

theorem sysMStep_spec {i : ℕ} {acc Mi : Mat R} (hi : 0 < i)
    (hacc : IsMat acc (6 * i) (6 * i)) (hMi : IsMat Mi 6 6) :
    sysMStep i acc Mi =
      some (List.zipWith (· ++ ·) acc (zerosM (6 * i) 6) ++
        List.zipWith (· ++ ·) (zerosM 6 (6 * i)) Mi) ∧
    IsMat (List.zipWith (· ++ ·) acc (zerosM (6 * i) 6) ++
        List.zipWith (· ++ ·) (zerosM 6 (6 * i)) Mi) (6 * (i + 1)) (6 * (i + 1)) := by
  have hz1 : IsMat (zerosM (R := R) (6 * i) 6) (6 * i) 6 := IsMat_zerosM _ _
  have hz2 : IsMat (zerosM (R := R) 6 (6 * i)) 6 (6 * i) := IsMat_zerosM _ _
  have htop : IsMat (List.zipWith (· ++ ·) acc (zerosM (6 * i) 6))
      (6 * i) (6 * i + 6) := IsMat_zipWith_append hacc hz1
  have hbot : IsMat (List.zipWith (· ++ ·) (zerosM 6 (6 * i)) Mi) 6 (6 * i + 6) :=
    IsMat_zipWith_append hz2 hMi
  constructor
  · unfold sysMStep
    rw [join_rows_eq (by rw [hacc.1]; simp [zerosM])]
    rw [join_rows_eq (by simp [zerosM, hMi.1])]
    simp only [Option.bind_some, Option.pure_def, Option.bind_eq_bind]
    exact join_cols_eq (by
      rw [matCols_of_IsMat htop (by omega), matCols_of_IsMat hbot (by omega)])
  · have := IsMat_append htop hbot
    have h1 : 6 * i + 6 = 6 * (i + 1) := by ring
    rw [h1] at this
    exact this

theorem sysMFold_spec (Ms : List (Mat R)) :
    ∀ (i : ℕ), 0 < i → ∀ (acc : Mat R), IsMat acc (6 * i) (6 * i) →
      (∀ Mi ∈ Ms, IsMat Mi 6 6) →
      ∃ res, sysMFold i acc Ms = some res ∧
        IsMat res (6 * (i + Ms.length)) (6 * (i + Ms.length)) := by
  induction Ms with
  | nil =>
    intro i _ acc hacc _
    exact ⟨acc, rfl, by simpa using hacc⟩
  | cons Mi rest ih =>
    intro i hi acc hacc hwf
    have hMi : IsMat Mi 6 6 := hwf Mi (List.mem_cons_self _ _)
    obtain ⟨hstepeq, hacc2⟩ := sysMStep_spec hi hacc hMi
    obtain ⟨res, hfold, hres⟩ :=
      ih (i + 1) (by omega) _ hacc2 (fun x hx => hwf x (List.mem_cons_of_mem _ hx))
    refine ⟨res, ?_, ?_⟩
    · show (sysMStep i acc Mi).bind (fun a => sysMFold (i + 1) a rest) = some res
      rw [hstepeq]
      simpa using hfold
    · have h1 : i + 1 + rest.length = i + (rest.length + 1) := by omega
      rw [h1] at hres
      simpa using hres

theorem IsMat_transM {A : Mat R} {r c : ℕ} (hA : IsMat A r c) (hr : 0 < r) :
    IsMat (transM A) c r := by
  constructor
  · simp [transM, matCols_of_IsMat hA hr]
  · intro row hrow
    simp only [transM, List.mem_map] at hrow
    obtain ⟨j, _, rfl⟩ := hrow
    simp [hA.1]

theorem gammaRawOf_length {joints : List (JointRec R)} (hj : ∀ j ∈ joints, JointWF j) :
    (gammaRawOf joints).length = 6 + 3 * joints.length := by
  unfold gammaRawOf
  rw [List.length_append, List.length_replicate,
    length_flatMap_const _ _ 3 (fun j hjm => (hj j hjm).2.1)]

theorem sysCOf_length {bodies : List (BodyRec R)} {joints : List (JointRec R)}
    (hb : ∀ b ∈ bodies, BodyWF b) (h0 : 0 < bodies.length)
    (hj : ∀ j ∈ joints, JointWF j) :
    (sysCOf bodies joints).length = 6 + 3 * joints.length := by
  unfold sysCOf
  have hb0 : BodyWF (bodies.getD 0 default) := by
    apply hb
    rw [List.getD_eq_getElem _ _ h0]
    exact List.getElem_mem h0
  rw [List.length_append, List.length_append, hb0.1, hb0.2.1,
    length_flatMap_const _ _ 3 (fun j hjm => (hj j hjm).2.2)]

theorem qdotOf_length {bodies : List (BodyRec R)} (hb : ∀ b ∈ bodies, BodyWF b) :
    (qdotOf bodies).length = 6 * bodies.length := by
  unfold qdotOf
  apply length_flatMap_const
  intro b hbm
  rw [List.length_append, (hb b hbm).2.2.1, (hb b hbm).2.2.2.1]

theorem qforceOf_length {bodies : List (BodyRec R)} (hb : ∀ b ∈ bodies, BodyWF b) :
    (qforceOf bodies).length = 6 * bodies.length := by
  unfold qforceOf
  apply length_flatMap_const
  intro b hbm
  rw [List.length_append, (hb b hbm).2.2.2.2.1, (hb b hbm).2.2.2.2.2.1]

/-- The Baumgarte-stabilized SYS_GAMMA actually stored by Cal_Constraints
(line 55 of src/src/Dynamics_System.cpp, evaluated left to right):
SYS_GAMMA = (SYS_GAMMA - (2.0 * SYS_Cq) * tmp_vec2) - SYS_C. -/
def stabilizedGamma (CQ : Mat R) (bodies : List (BodyRec R))
    (joints : List (JointRec R)) : List R :=
  vsubT (vsubT (gammaRawOf joints) (mulVecT (smulM (2 : R) CQ) (qdotOf bodies)))
    (sysCOf bodies joints)

/--
When every body and joint is well-formed and the body count exceeds the joint
count by exactly one, every Armadillo dimension check in Cal_Constraints
passes and the stored output has the explicit closed form below.
-/
theorem Cal_Constraints_some {bodies : List (BodyRec R)} {joints : List (JointRec R)}
    (hb : ∀ b ∈ bodies, BodyWF b) (hj : ∀ j ∈ joints, JointWF j)
    (hn : bodies.length = joints.length + 1) :
    ∃ CQ M, sysCqFold 0 (eyeM 6) (joints.map JointRec.Cq) = some CQ ∧
      sysMFold 1 (eyeM 6) ((bodies.drop 1).map BodyRec.M) = some M ∧
      IsMat CQ (6 + 3 * joints.length) (6 + 6 * joints.length) ∧
      IsMat M (6 * bodies.length) (6 * bodies.length) ∧
      Cal_Constraints bodies joints = some
        ⟨CQ, stabilizedGamma CQ bodies joints, sysCOf bodies joints, M,
          qforceOf bodies ++ stabilizedGamma CQ bodies joints,
          List.zipWith (· ++ ·) M (transM CQ) ++
            List.zipWith (· ++ ·) CQ (zerosM (matRows CQ) (matRows CQ))⟩ := by
  have h0 : 0 < bodies.length := by omega
  obtain ⟨CQ, hCQeq, hCQmat, _, _⟩ :=
    sysCqFold_spec (joints.map JointRec.Cq) 0 (eyeM 6)
      (by simpa using IsMat_eyeM 6)
      (by
        intro cq hcq
        simp only [List.mem_map] at hcq
        obtain ⟨j, hjm, rfl⟩ := hcq
        exact (hj j hjm).1)
  rw [zero_add, List.length_map] at hCQmat
  obtain ⟨M, hMeq, hMmat⟩ :=
    sysMFold_spec ((bodies.drop 1).map BodyRec.M) 1 (by omega) (eyeM 6)
      (by simpa using IsMat_eyeM 6)
      (by
        intro Mi hMi
        simp only [List.mem_map] at hMi
        obtain ⟨b, hbm, rfl⟩ := hMi
        exact (hb b (List.mem_of_mem_drop hbm)).2.2.2.2.2.2)
  rw [List.length_map, List.length_drop] at hMmat
  have hM1 : 1 + (bodies.length - 1) = bodies.length := by omega
  rw [hM1] at hMmat
  have hCQ0 : 0 < 6 + 3 * joints.length := by omega
  have hsmul : IsMat (smulM (2 : R) CQ) (6 + 3 * joints.length) (6 + 6 * joints.length) :=
    smulM_map hCQmat
  have hqdot : (qdotOf bodies).length = 6 * bodies.length := qdotOf_length hb
  have hcolsq : matCols (smulM (2 : R) CQ) = (qdotOf bodies).length := by
    rw [matCols_of_IsMat hsmul hCQ0, hqdot, hn]; ring
  have hstab : mulVecM (smulM (2 : R) CQ) (qdotOf bodies) =
      some (mulVecT (smulM (2 : R) CQ) (qdotOf bodies)) := by
    unfold mulVecM
    rw [if_pos hcolsq]
  have hstablen : (mulVecT (smulM (2 : R) CQ) (qdotOf bodies)).length =
      6 + 3 * joints.length := by
    simp [mulVecT, hsmul.1]
  have hgraw : (gammaRawOf joints).length = 6 + 3 * joints.length := gammaRawOf_length hj
  have hg1 : vsub (gammaRawOf joints) (mulVecT (smulM (2 : R) CQ) (qdotOf bodies)) =
      some (vsubT (gammaRawOf joints) (mulVecT (smulM (2 : R) CQ) (qdotOf bodies))) := by
    unfold vsub
    rw [if_pos (by rw [hgraw, hstablen])]
  have hg1len : (vsubT (gammaRawOf joints)
      (mulVecT (smulM (2 : R) CQ) (qdotOf bodies))).length = 6 + 3 * joints.length := by
    simp [vsubT, hgraw, hstablen]
  have hClen : (sysCOf bodies joints).length = 6 + 3 * joints.length :=
    sysCOf_length hb h0 hj
  have hgamma : vsub (vsubT (gammaRawOf joints)
      (mulVecT (smulM (2 : R) CQ) (qdotOf bodies))) (sysCOf bodies joints) =
      some (stabilizedGamma CQ bodies joints) := by
    unfold vsub stabilizedGamma
    rw [if_pos (by rw [hg1len, hClen])]
  have htrans : IsMat (transM CQ) (6 + 6 * joints.length) (6 + 3 * joints.length) :=
    IsMat_transM hCQmat hCQ0
  have hMrows : M.length = 6 * bodies.length := hMmat.1
  have htopjoin : join_rows M (transM CQ) =
      some (List.zipWith (· ++ ·) M (transM CQ)) :=
    join_rows_eq (by rw [hMrows, htrans.1, hn]; ring)
  have hMmat2 : IsMat M (6 + 6 * joints.length) (6 + 6 * joints.length) := by
    have : 6 * bodies.length = 6 + 6 * joints.length := by omega
    rw [this] at hMmat
    exact hMmat
  have htopmat : IsMat (List.zipWith (· ++ ·) M (transM CQ))
      (6 + 6 * joints.length) ((6 + 6 * joints.length) + (6 + 3 * joints.length)) :=
    IsMat_zipWith_append hMmat2 htrans
  have hzbot : IsMat (zerosM (R := R) (matRows CQ) (matRows CQ))
      (6 + 3 * joints.length) (6 + 3 * joints.length) := by
    have : matRows CQ = 6 + 3 * joints.length := hCQmat.1
    rw [this]
    exact IsMat_zerosM _ _
  have hbotjoin : join_rows CQ (zerosM (matRows CQ) (matRows CQ)) =
      some (List.zipWith (· ++ ·) CQ (zerosM (matRows CQ) (matRows CQ))) :=
    join_rows_eq (by rw [hCQmat.1, hzbot.1])
  have hbotmat : IsMat (List.zipWith (· ++ ·) CQ (zerosM (matRows CQ) (matRows CQ)))
      (6 + 3 * joints.length) ((6 + 6 * joints.length) + (6 + 3 * joints.length)) :=
    IsMat_zipWith_append hCQmat hzbot
  have hmatjoin : join_cols (List.zipWith (· ++ ·) M (transM CQ))
      (List.zipWith (· ++ ·) CQ (zerosM (matRows CQ) (matRows CQ))) =
      some (List.zipWith (· ++ ·) M (transM CQ) ++
        List.zipWith (· ++ ·) CQ (zerosM (matRows CQ) (matRows CQ))) :=
    join_cols_eq (by
      rw [matCols_of_IsMat htopmat (by omega), matCols_of_IsMat hbotmat (by omega)])
  refine ⟨CQ, M, hCQeq, hMeq, hCQmat, hMmat, ?_⟩
  unfold Cal_Constraints
  rw [hCQeq, hMeq]
  simp only [Option.pure_def, Option.bind_eq_bind, Option.some_bind]
  rw [hstab]
  simp only [Option.some_bind]
  rw [hg1]
  simp only [Option.some_bind]
  rw [hgamma]
  simp only [Option.some_bind]
  rw [htopjoin]
  simp only [Option.some_bind]
  rw [hbotjoin]
  simp only [Option.some_bind]
  rw [hmatjoin]
  simp only [Option.some_bind]

end AssemblerLemmas

section JacobianClaims

variable {R : Type} [Field R]

instance : Inhabited (JointRec R) := ⟨⟨[], [], []⟩⟩

/-- Concrete stand-in for the external trigonometric library in the rational
witnesses below. -/
def qSC : SinCos ℚ := ⟨fun _ => 0, fun _ => 1⟩

/--
C2 counterexample: on the registered topology with two bodies and no joints
(at least one body, as the claim requires), the assembled constraint Jacobian
is the initial 6x6 identity, with 6 columns — not 6 x (body count) = 12
columns.  (The column count of the assembled Jacobian never depends on the
registered bodies at all.)
-/
theorem C2_counterexample :
    ([Ground_construct qSC [0, 0, 0], Ground_construct qSC [0, 0, 0]] :
        List (BodyRec ℚ)).length = 2 ∧
    sysCqFold 0 (eyeM (R := ℚ) 6) (([] : List (JointRec ℚ)).map JointRec.Cq) =
      some (eyeM 6) ∧
    ¬ matCols (eyeM (R := ℚ) 6) = 6 * 2 := by
  refine ⟨rfl, rfl, ?_⟩
  decide

/--
C2 (amended): for every list of registered joints with well-formed 3x12
Jacobian blocks, the assembled global constraint Jacobian exists and has
exactly 6 + 3·(joint count) rows and 6·(joint count + 1) columns — equal to
6·(body count) only in the serial-chain case body count = joint count + 1 —
consisting of a leading 6x6 identity block, with the 3-row block of joint i
placed at column offset 6·i (the column offsets of bodies i and i+1),
regardless of which bodies the joint references.
-/
theorem C2_jacobian_shape (joints : List (JointRec R))
    (hj : ∀ j ∈ joints, JointWF j) :
    ∃ CQ, sysCqFold 0 (eyeM 6) (joints.map JointRec.Cq) = some CQ ∧
      matRows CQ = 6 + 3 * joints.length ∧
      matCols CQ = 6 * (joints.length + 1) ∧
      (∀ r j, r < 6 → matEntry CQ r j = if r = j then 1 else 0) ∧
      (∀ k, k < joints.length → ∀ r j, r < 3 →
        matEntry CQ (6 + 3 * k + r) j =
          if 6 * k ≤ j ∧ j < 6 * k + 12 then
            matEntry (joints.getD k default).Cq r (j - 6 * k) else 0) := by
  obtain ⟨CQ, hCQeq, hCQmat, hpres, hblock⟩ :=
    sysCqFold_spec (joints.map JointRec.Cq) 0 (eyeM 6)
      (by simpa using IsMat_eyeM 6)
      (by
        intro cq hcq
        simp only [List.mem_map] at hcq
        obtain ⟨j, hjm, rfl⟩ := hcq
        exact (hj j hjm).1)
  rw [zero_add, List.length_map] at hCQmat
  refine ⟨CQ, hCQeq, hCQmat.1, ?_, ?_, ?_⟩
  · rw [matCols_of_IsMat hCQmat (by omega)]; ring
  · intro r j hr
    rw [hpres r j (by omega), matEntry_eyeM]
    by_cases hrj : r = j <;> simp [hrj, hr] <;> omega
  · intro k hk r j hr
    have := hblock k (by simpa using hk) r j hr
    rw [zero_add] at this
    rw [this]
    have hget : (joints.map JointRec.Cq).getD k [] = (joints.getD k default).Cq := by
      have : ([] : Mat R) = JointRec.Cq default := rfl
      rw [this, List.getD_map]
    rw [hget]

/-- Witness for the amended C2 at one registered joint with a zero 3x12
block. -/
theorem C2_witness :
    ∃ CQ, sysCqFold 0 (eyeM 6)
        (([⟨zerosM 3 12, [0, 0, 0], [0, 0, 0]⟩] : List (JointRec ℚ)).map JointRec.Cq) =
        some CQ ∧
      matRows CQ = 6 + 3 * 1 ∧
      matCols CQ = 6 * (1 + 1) ∧
      (∀ r j, r < 6 → matEntry CQ r j = if r = j then 1 else 0) ∧
      (∀ k, k < 1 → ∀ r j, r < 3 →
        matEntry CQ (6 + 3 * k + r) j =
          if 6 * k ≤ j ∧ j < 6 * k + 12 then
            matEntry (([⟨zerosM 3 12, [0, 0, 0], [0, 0, 0]⟩] :
              List (JointRec ℚ)).getD k default).Cq r (j - 6 * k) else 0) := by
  have h := C2_jacobian_shape
    ([⟨zerosM 3 12, [0, 0, 0], [0, 0, 0]⟩] : List (JointRec ℚ))
    (by decide)
  simpa using h

/--
C10: with at least one registered body and well-formed bodies and joints, the
multiplication SYS_Cq * tmp_vec2 in Cal_Constraints is conformable — and the
whole assembly completes without an Armadillo dimension-mismatch abort — if
and only if body count = joint count + 1 (joint block i sits at column offset
6·i unconditionally, so the Jacobian has 6·(joint count + 1) columns while the
stacked velocity vector has 6·(body count) entries).
-/
theorem C10_assembly_completes_iff (bodies : List (BodyRec R))
    (joints : List (JointRec R))
    (hb : ∀ b ∈ bodies, BodyWF b) (hj : ∀ j ∈ joints, JointWF j)
    (h0 : 0 < bodies.length) :
    (Cal_Constraints bodies joints).isSome ↔ bodies.length = joints.length + 1 := by
  constructor
  · intro hsome
    by_contra hne
    obtain ⟨CQ, hCQeq, hCQmat, _, _⟩ :=
      sysCqFold_spec (joints.map JointRec.Cq) 0 (eyeM 6)
        (by simpa using IsMat_eyeM 6)
        (by
          intro cq hcq
          simp only [List.mem_map] at hcq
          obtain ⟨j, hjm, rfl⟩ := hcq
          exact (hj j hjm).1)
    rw [zero_add, List.length_map] at hCQmat
    obtain ⟨M, hMeq, _⟩ :=
      sysMFold_spec ((bodies.drop 1).map BodyRec.M) 1 (by omega) (eyeM 6)
        (by simpa using IsMat_eyeM 6)
        (by
          intro Mi hMi
          simp only [List.mem_map] at hMi
          obtain ⟨b, hbm, rfl⟩ := hMi
          exact (hb b (List.mem_of_mem_drop hbm)).2.2.2.2.2.2)
    have hnone : Cal_Constraints bodies joints = none := by
      unfold Cal_Constraints
      rw [hCQeq, hMeq]
      simp only [Option.pure_def, Option.bind_eq_bind, Option.some_bind]
      have hmul : mulVecM (smulM (2 : R) CQ) (qdotOf bodies) = none := by
        unfold mulVecM
        rw [if_neg]
        rw [matCols_of_IsMat (smulM_map hCQmat) (by omega), qdotOf_length hb]
        omega
      rw [hmul]
      rfl
    rw [hnone] at hsome
    simp at hsome
  · intro hn
    obtain ⟨CQ, M, _, _, _, _, heq⟩ := Cal_Constraints_some hb hj hn
    rw [heq]
    rfl

/-- Witness for C10 in both directions: a serial 2-body/1-joint topology
assembles, and the same joint with only one body aborts. -/
theorem C10_witness :
    ((Cal_Constraints
        [Ground_construct qSC [0, 0, 0],
         Ground_construct qSC [0, 0, 0]]
        ([⟨zerosM 3 12, [0, 0, 0], [0, 0, 0]⟩] : List (JointRec ℚ))).isSome ↔
      (2 : ℕ) = 1 + 1) ∧
    ((Cal_Constraints [Ground_construct qSC [0, 0, 0]]
        ([⟨zerosM 3 12, [0, 0, 0], [0, 0, 0]⟩] : List (JointRec ℚ))).isSome ↔
      (1 : ℕ) = 1 + 1) := by
  constructor
  · have h := C10_assembly_completes_iff
      [Ground_construct qSC [0, 0, 0], Ground_construct qSC [0, 0, 0]]
      ([⟨zerosM 3 12, [0, 0, 0], [0, 0, 0]⟩] : List (JointRec ℚ))
      (by decide) (by decide) (by decide)
    simpa using h
  · have h := C10_assembly_completes_iff
      [Ground_construct qSC [0, 0, 0]]
      ([⟨zerosM 3 12, [0, 0, 0], [0, 0, 0]⟩] : List (JointRec ℚ))
      (by decide) (by decide) (by decide)
    simpa using h

end JacobianClaims

section GammaClaims

variable {R : Type} [Field R]

/--
C3: the stabilized right-hand side stored by Cal_Constraints is exactly
SYS_GAMMA = Gamma_raw - 2·(Cq·qdot) - C, with unit gain coefficients, where
Gamma_raw is the stacked raw quadratic-velocity column (a zero 6-vector for
the ground pin block followed by each joint's Gamma), qdot is the stacked
vector of every body's linear and angular velocity, and C the stacked
constraint residual.
-/
theorem C3_gamma_unit_gains (bodies : List (BodyRec R)) (joints : List (JointRec R))
    (hb : ∀ b ∈ bodies, BodyWF b) (hj : ∀ j ∈ joints, JointWF j)
    (hn : bodies.length = joints.length + 1) :
    ∃ out, Cal_Constraints bodies joints = some out ∧
      out.SYS_GAMMA =
        vsubT (vsubT (gammaRawOf joints)
          (smulV (2 : R) (mulVecT out.SYS_Cq (qdotOf bodies)))) out.SYS_C ∧
      out.SYS_C = sysCOf bodies joints := by
  obtain ⟨CQ, M, _, _, _, _, heq⟩ := Cal_Constraints_some hb hj hn
  refine ⟨_, heq, ?_, rfl⟩
  show stabilizedGamma CQ bodies joints = _
  unfold stabilizedGamma
  rw [mulVecT_smulM]

/-- Witness for C3 on the one-body, zero-joint topology. -/
theorem C3_witness :
    ∃ out, Cal_Constraints [Ground_construct qSC [0, 0, 0]]
        ([] : List (JointRec ℚ)) = some out ∧
      out.SYS_GAMMA =
        vsubT (vsubT (gammaRawOf ([] : List (JointRec ℚ)))
          (smulV (2 : ℚ) (mulVecT out.SYS_Cq
            (qdotOf [Ground_construct qSC [0, 0, 0]])))) out.SYS_C ∧
      out.SYS_C = sysCOf [Ground_construct qSC [0, 0, 0]] ([] : List (JointRec ℚ)) :=
  C3_gamma_unit_gains [Ground_construct qSC [0, 0, 0]] [] (by decide) (by decide)
    (by decide)

/--
The first six entries of the stabilized Gamma: row r < 6 of the Jacobian is
the ground-pin basis row, so entry r is 0 - 2·qdot_r - C_r.
-/
theorem stabilizedGamma_getD_head {bodies : List (BodyRec R)}
    {joints : List (JointRec R)} {CQ : Mat R}
    (hb : ∀ b ∈ bodies, BodyWF b) (hj : ∀ j ∈ joints, JointWF j)
    (hn : bodies.length = joints.length + 1)
    (hCQ : IsMat CQ (6 + 3 * joints.length) (6 + 6 * joints.length))
    (hrow : ∀ r j, r < 6 → matEntry CQ r j = if r = j then 1 else 0)
    {r : ℕ} (hr : r < 6) :
    (stabilizedGamma CQ bodies joints).getD r 0 =
      0 - 2 * (qdotOf bodies).getD r 0 - (sysCOf bodies joints).getD r 0 := by
  have hgraw : (gammaRawOf joints).length = 6 + 3 * joints.length := gammaRawOf_length hj
  have hsmul : IsMat (smulM (2 : R) CQ) (6 + 3 * joints.length) (6 + 6 * joints.length) :=
    smulM_map hCQ
  have hstablen : (mulVecT (smulM (2 : R) CQ) (qdotOf bodies)).length =
      6 + 3 * joints.length := by simp [mulVecT, hsmul.1]
  have hClen : (sysCOf bodies joints).length = 6 + 3 * joints.length :=
    sysCOf_length hb (by omega) hj
  have hg1len : (vsubT (gammaRawOf joints)
      (mulVecT (smulM (2 : R) CQ) (qdotOf bodies))).length = 6 + 3 * joints.length := by
    simp [vsubT, hgraw, hstablen]
  unfold stabilizedGamma
  rw [vsubT_getD _ _ r (by omega) (by omega)]
  rw [vsubT_getD _ _ r (by omega) (by omega)]
  have hraw : (gammaRawOf joints).getD r 0 = 0 := by
    unfold gammaRawOf
    rw [List.getD_append _ _ _ _ (by simp; omega)]
    rw [getD_replicate_ite, if_pos hr]
  have hstab : (mulVecT (smulM (2 : R) CQ) (qdotOf bodies)).getD r 0 =
      2 * (qdotOf bodies).getD r 0 := by
    rw [mulVecT_getD hsmul (by omega)]
    have hrowmap : (smulM (2 : R) CQ).getD r [] =
        (CQ.getD r []).map (fun x => (2 : R) * x) := by
      unfold smulM
      exact List.getD_map CQ ([] : List R) (List.map fun x => (2 : R) * x)
    rw [hrowmap, dotL_smul_left]
    have hqlen : (qdotOf bodies).length = 6 * bodies.length := qdotOf_length hb
    have hrlt : r < CQ.length := by rw [hCQ.1]; omega
    have hulen : (CQ.getD r []).length = 6 + 6 * joints.length := by
      rw [List.getD_eq_getElem _ _ hrlt]
      exact hCQ.2 _ (List.getElem_mem hrlt)
    rw [dotL_basis_row (r := r) (by omega) (by rw [hqlen, hulen, hn]; ring_nf; omega)
      (fun j => hrow r j hr)]
  rw [hraw, hstab]

/--
C4 counterexample: with the Ground reference position (1, 0, 0), the first
entry of the ground pin block of the assembled right-hand side's lower
partition is -1, not 0.
-/
theorem C4_counterexample :
    (Cal_Constraints [Ground_construct qSC [(1 : ℚ), 0, 0]]
        ([] : List (JointRec ℚ))).map (fun out => out.SYS_RHS.getD 6 0) =
      some (-1) ∧ (-1 : ℚ) ≠ 0 := by
  constructor
  · norm_num [Cal_Constraints, sysCqFold, sysMFold, mulVecM, mulVecT, matCols, matRows,
      vsub, vsubT, dotL, smulM, gammaRawOf, sysCOf, qdotOf, qforceOf, Ground_construct,
      qSC, eyeM, List.range_succ, join_rows, join_cols, transM, zerosM, List.replicate]
  · norm_num

/--
C4 (amended): the lower partition of the assembled right-hand side is the
stacked stabilized Gamma, and its first six entries (the ground pin block)
equal -(2·qdot_r + C_r) for the first body; for a Ground body (zero velocity,
zero angular velocity, zero angles) they are the negated Ground reference
position in the first three slots and 0 in the next three — so they form the
zero 6-vector exactly when the Ground sits at the origin, not for every
Ground reference position.
-/
theorem C4_rhs_ground_pin (sc : SinCos R) (p : List R) (rest : List (BodyRec R))
    (joints : List (JointRec R))
    (hb : ∀ b ∈ (Ground_construct sc p :: rest), BodyWF b)
    (hj : ∀ j ∈ joints, JointWF j)
    (hn : (Ground_construct sc p :: rest).length = joints.length + 1) :
    ∃ out, Cal_Constraints (Ground_construct sc p :: rest) joints = some out ∧
      out.SYS_RHS = qforceOf (Ground_construct sc p :: rest) ++ out.SYS_GAMMA ∧
      (∀ r, r < 3 →
        out.SYS_RHS.getD (6 * (rest.length + 1) + r) 0 = -(p.getD r 0)) ∧
      (∀ r, 3 ≤ r → r < 6 →
        out.SYS_RHS.getD (6 * (rest.length + 1) + r) 0 = 0) := by
  obtain ⟨CQ, M, hCQeq, _, hCQmat, _, heq⟩ := Cal_Constraints_some hb hj hn
  obtain ⟨CQ2, hCQeq2, _, _, hrow2, _⟩ := C2_jacobian_shape joints hj
  have hCC : CQ2 = CQ := by
    rw [hCQeq] at hCQeq2
    exact (Option.some_injective _ hCQeq2).symm
  rw [hCC] at hrow2
  refine ⟨_, heq, rfl, ?_, ?_⟩
  all_goals
    intro r
  · intro hr3
    have hflen : (qforceOf (Ground_construct sc p :: rest)).length =
        6 * (rest.length + 1) := by
      rw [qforceOf_length hb]
      simp
    show (qforceOf (Ground_construct sc p :: rest) ++
        stabilizedGamma CQ (Ground_construct sc p :: rest) joints).getD
        (6 * (rest.length + 1) + r) 0 = -(p.getD r 0)
    rw [List.getD_append_right _ _ _ _ (by omega), hflen]
    have hidx : 6 * (rest.length + 1) + r - (6 * (rest.length + 1)) = r := by omega
    rw [hidx]
    rw [stabilizedGamma_getD_head hb hj hn hCQmat hrow2 (by omega)]
    have hqd : (qdotOf (Ground_construct sc p :: rest)).getD r 0 = 0 := by
      unfold qdotOf Ground_construct
      rw [List.flatMap_cons]
      rw [List.getD_append _ _ _ _ (by simp; omega)]
      interval_cases r <;> rfl
    have hC : (sysCOf (Ground_construct sc p :: rest) joints).getD r 0 = p.getD r 0 := by
      unfold sysCOf
      have hb0 : BodyWF (Ground_construct sc p) :=
        hb _ (List.mem_cons_self _ _)
      have hplen : p.length = 3 := hb0.1
      show (((Ground_construct sc p).POSITION ++ (Ground_construct sc p).ANGLE) ++
          joints.flatMap JointRec.CONSTRAINT).getD r 0 = p.getD r 0
      rw [List.getD_append _ _ _ _ (by simp [Ground_construct, hplen]; omega)]
      rw [List.getD_append _ _ _ _ (by simp [Ground_construct, hplen]; omega)]
      rfl
    rw [hqd, hC]
    ring
  · intro hr3 hr6
    have hflen : (qforceOf (Ground_construct sc p :: rest)).length =
        6 * (rest.length + 1) := by
      rw [qforceOf_length hb]
      simp
    show (qforceOf (Ground_construct sc p :: rest) ++
        stabilizedGamma CQ (Ground_construct sc p :: rest) joints).getD
        (6 * (rest.length + 1) + r) 0 = 0
    rw [List.getD_append_right _ _ _ _ (by omega), hflen]
    have hidx : 6 * (rest.length + 1) + r - (6 * (rest.length + 1)) = r := by omega
    rw [hidx]
    rw [stabilizedGamma_getD_head hb hj hn hCQmat hrow2 (by omega)]
    have hqd : (qdotOf (Ground_construct sc p :: rest)).getD r 0 = 0 := by
      unfold qdotOf Ground_construct
      rw [List.flatMap_cons]
      rw [List.getD_append _ _ _ _ (by simp; omega)]
      interval_cases r <;> rfl
    have hC : (sysCOf (Ground_construct sc p :: rest) joints).getD r 0 = 0 := by
      unfold sysCOf
      have hb0 : BodyWF (Ground_construct sc p) :=
        hb _ (List.mem_cons_self _ _)
      have hplen : p.length = 3 := hb0.1
      show (((Ground_construct sc p).POSITION ++ (Ground_construct sc p).ANGLE) ++
          joints.flatMap JointRec.CONSTRAINT).getD r 0 = 0
      rw [List.getD_append _ _ _ _ (by simp [Ground_construct, hplen]; omega)]
      rw [List.getD_append_right _ _ _ _ (by simp [Ground_construct, hplen]; omega)]
      have hplen2 : (Ground_construct sc p).POSITION.length = 3 := by
        simpa [Ground_construct] using hplen
      rw [hplen2]
      show ([(0 : R), 0, 0]).getD (r - 3) 0 = 0
      interval_cases r <;> rfl
    rw [hqd, hC]
    ring

/-- Witness for the amended C4: a single Ground at reference position
(5, 7, 9), no joints. -/
theorem C4_witness :
    ∃ out, Cal_Constraints [Ground_construct qSC [(5 : ℚ), 7, 9]]
        ([] : List (JointRec ℚ)) = some out ∧
      out.SYS_RHS = qforceOf [Ground_construct qSC [(5 : ℚ), 7, 9]] ++ out.SYS_GAMMA ∧
      (∀ r, r < 3 →
        out.SYS_RHS.getD (6 * (0 + 1) + r) 0 = -(([(5 : ℚ), 7, 9]).getD r 0)) ∧
      (∀ r, 3 ≤ r → r < 6 →
        out.SYS_RHS.getD (6 * (0 + 1) + r) 0 = 0) := by
  have h := C4_rhs_ground_pin qSC [(5 : ℚ), 7, 9] [] [] (by decide) (by decide)
    (by decide)
  simpa using h

end GammaClaims

section DerivativeFunction

variable {R : Type} [Field R]

/-- arma subvec(a, b): the inclusive slice [a, b]. -/
def subvec (v : List R) (a b : ℕ) : List R :=
  (List.range (b + 1 - a)).map fun k => v.getD (a + k) 0

/-- The first loop of Dynamics_Sys::dynamic_function (lines 126-128): every
body is updated with its four generalized sub-blocks sliced from qIn. -/
def updatedBodies (sc : SinCos R) (bodies : List (BodyRec R))
    (qIn : List (List R)) : List (BodyRec R) :=
  (List.range bodies.length).map fun i =>
    BodyRec.update sc (bodies.getD i default) (qIn.getD (i * 4) [])
      (qIn.getD (i * 4 + 1) []) (qIn.getD (i * 4 + 2) []) (qIn.getD (i * 4 + 3) [])

/--
Dynamics_Sys::dynamic_function (src/src/Dynamics_System.cpp lines 124-161):
update bodies from qIn, update joints (Joint::update is external to the
analysed sources and abstracted as jointUpdate reading the updated bodies),
run Cal_Constraints, solve the augmented system with the external dense
solver (abstracted as linsolve), and write the output slots
qdOut[i*4] = qIn[i*4+1], qdOut[i*4+1] = ANS.subvec(i*6, i*6+2),
qdOut[i*4+2] = body i's TBID_Q, qdOut[i*4+3] = ANS.subvec(i*6+3, i*6+5).
-/
def dynamic_function (sc : SinCos R) (linsolve : Mat R → List R → List R)
    (jointUpdate : List (BodyRec R) → JointRec R → JointRec R)
    (bodies : List (BodyRec R)) (joints : List (JointRec R))
    (qIn : List (List R)) : Option (List (List R)) := do
  let bodies2 := updatedBodies sc bodies qIn
  let joints2 := joints.map (jointUpdate bodies2)
  let sys ← Cal_Constraints bodies2 joints2
  let ANS := linsolve sys.SYS_MAT sys.SYS_RHS
  some ((List.range bodies.length).flatMap fun i =>
    [qIn.getD (i * 4 + 1) [], subvec ANS (i * 6) (i * 6 + 2),
     (bodies2.getD i default).TBID_Q, subvec ANS (i * 6 + 3) (i * 6 + 5)])

theorem flatMap_range_chunk_getD {α : Type} (g : ℕ → List α) (d : α) (n : ℕ)
    (hg : ∀ i, (g i).length = 4) :
    ∀ i j, i < n → j < 4 →
      ((List.range n).flatMap g).getD (i * 4 + j) d = (g i).getD j d := by
  induction n with
  | zero => intro i j hi _; omega
  | succ n ih =>
    intro i j hi hj
    rw [List.range_succ, List.flatMap_append]
    have hlen : ((List.range n).flatMap g).length = 4 * n := by
      rw [length_flatMap_const (List.range n) g 4 (fun a _ => hg a), List.length_range]
    rcases lt_or_ge i n with hin | hin
    · rw [List.getD_append _ _ _ _ (by rw [hlen]; omega)]
      exact ih i j hin hj
    · have hieq : i = n := by omega
      subst hieq
      rw [List.getD_append_right _ _ _ _ (by rw [hlen]; omega), hlen]
      have hidx : i * 4 + j - 4 * i = j := by omega
      rw [hidx]
      simp [List.flatMap_cons]

theorem update_preserves_TBID_Q (sc : SinCos R) (b : BodyRec R)
    (Pos Vel Att AngVel : List R) :
    (BodyRec.update sc b Pos Vel Att AngVel).TBID_Q = b.TBID_Q := by
  unfold BodyRec.update
  cases hk : b.kind <;> rfl

/--
C5: whenever one derivative evaluation succeeds, for every body i the output
has the position-derivative slot equal to the velocity sub-block i*4+1 of the
input state (pass-through), the orientation-derivative slot equal to that
body's current TBID_Q (pass-through: update never writes it), and the linear-
and angular-acceleration slots equal to entries i*6..i*6+2 and i*6+3..i*6+5 of
the solution of the augmented linear system; entries of the solution beyond
6·(body count) — the Lagrange multipliers — are discarded.
-/
theorem C5_derivative_slots (sc : SinCos R) (linsolve : Mat R → List R → List R)
    (jointUpdate : List (BodyRec R) → JointRec R → JointRec R)
    (bodies : List (BodyRec R)) (joints : List (JointRec R)) (qIn : List (List R))
    (out : List (List R))
    (hout : dynamic_function sc linsolve jointUpdate bodies joints qIn = some out)
    (i : ℕ) (hi : i < bodies.length) :
    ∃ sys, Cal_Constraints (updatedBodies sc bodies qIn)
        (joints.map (jointUpdate (updatedBodies sc bodies qIn))) = some sys ∧
      out.getD (i * 4) [] = qIn.getD (i * 4 + 1) [] ∧
      out.getD (i * 4 + 1) [] =
        subvec (linsolve sys.SYS_MAT sys.SYS_RHS) (i * 6) (i * 6 + 2) ∧
      out.getD (i * 4 + 2) [] = (bodies.getD i default).TBID_Q ∧
      out.getD (i * 4 + 3) [] =
        subvec (linsolve sys.SYS_MAT sys.SYS_RHS) (i * 6 + 3) (i * 6 + 5) := by
  unfold dynamic_function at hout
  simp only [Option.pure_def, Option.bind_eq_bind, Option.bind_eq_some] at hout
  obtain ⟨sys, hsys, hflat⟩ := hout
  have hchunk := flatMap_range_chunk_getD
    (fun i => [qIn.getD (i * 4 + 1) [],
      subvec (linsolve sys.SYS_MAT sys.SYS_RHS) (i * 6) (i * 6 + 2),
      ((updatedBodies sc bodies qIn).getD i default).TBID_Q,
      subvec (linsolve sys.SYS_MAT sys.SYS_RHS) (i * 6 + 3) (i * 6 + 5)])
    ([] : List R) bodies.length (fun _ => rfl) i
  refine ⟨sys, hsys, ?_, ?_, ?_, ?_⟩
  all_goals
    rw [← Option.some_inj.1 hflat]
  · rw [show i * 4 = i * 4 + 0 by omega, hchunk 0 hi (by omega)]
    rfl
  · rw [hchunk 1 hi (by omega)]
    rfl
  · rw [hchunk 2 hi (by omega)]
    show ((updatedBodies sc bodies qIn).getD i default).TBID_Q = _
    unfold updatedBodies
    rw [getD_map_range, if_pos hi, update_preserves_TBID_Q]
  · rw [hchunk 3 hi (by omega)]
    rfl

/-- Witness for C5: a one-Ground system with no joints, the zero state, and a
stand-in solver returning the zero 6-vector. -/
theorem C5_witness :
    ∃ sys, Cal_Constraints
        (updatedBodies qSC [Ground_construct qSC [0, 0, 0]]
          [[0, 0, 0], [0, 0, 0], [0, 0, 0], [0, 0, 0]])
        (([] : List (JointRec ℚ)).map
          (fun j => j)) = some sys ∧
      ([[(0 : ℚ), 0, 0], [0, 0, 0], [], [0, 0, 0]] : List (List ℚ)).getD (0 * 4) [] =
        ([[(0 : ℚ), 0, 0], [0, 0, 0], [0, 0, 0], [0, 0, 0]] :
          List (List ℚ)).getD (0 * 4 + 1) [] ∧
      ([[(0 : ℚ), 0, 0], [0, 0, 0], [], [0, 0, 0]] : List (List ℚ)).getD (0 * 4 + 1) [] =
        subvec ((fun (_ : Mat ℚ) (_ : List ℚ) => List.replicate 6 (0 : ℚ))
          sys.SYS_MAT sys.SYS_RHS) (0 * 6) (0 * 6 + 2) ∧
      ([[(0 : ℚ), 0, 0], [0, 0, 0], [], [0, 0, 0]] : List (List ℚ)).getD (0 * 4 + 2) [] =
        (([Ground_construct qSC [0, 0, 0]] :
          List (BodyRec ℚ)).getD 0 default).TBID_Q ∧
      ([[(0 : ℚ), 0, 0], [0, 0, 0], [], [0, 0, 0]] : List (List ℚ)).getD (0 * 4 + 3) [] =
        subvec ((fun (_ : Mat ℚ) (_ : List ℚ) => List.replicate 6 (0 : ℚ))
          sys.SYS_MAT sys.SYS_RHS) (0 * 6 + 3) (0 * 6 + 5) := by
  have h := C5_derivative_slots qSC
    (fun (_ : Mat ℚ) (_ : List ℚ) => List.replicate 6 (0 : ℚ))
    (fun _ j => j)
    [Ground_construct qSC [0, 0, 0]] []
    [[0, 0, 0], [0, 0, 0], [0, 0, 0], [0, 0, 0]]
    [[(0 : ℚ), 0, 0], [0, 0, 0], [], [0, 0, 0]]
    (by
      norm_num [dynamic_function, updatedBodies, BodyRec.update, Ground_construct,
        Cal_Constraints, sysCqFold, sysMFold, mulVecM, mulVecT, matCols, matRows,
        vsub, vsubT, dotL, smulM, gammaRawOf, sysCOf, qdotOf, qforceOf, qSC, eyeM,
        List.range_succ, join_rows, join_cols, transM, zerosM, List.replicate, subvec])
    0 (by decide)
  exact h

end DerivativeFunction

section BodyClaims

variable {R : Type} [Field R]

/--
C7: for every Mobilized body and all argument vectors, update replaces
exactly POSITION, VELOCITY, ANGLE and ANGLE_VEL with its four arguments and
recomputes TBI as the closed-form 3-2-1 (yaw-pitch-roll) Euler rotation
matrix of the new orientation triple (yaw = entry 2, pitch = entry 1,
roll = entry 0), while ACCELERATION, ANGLE_ACC, the mass/inertia matrix M,
FORCE and TORQUE (and the TBI_Q / TBID_Q fields) are unchanged — so TBI is
never stale after update.
-/
theorem C7_mobilized_update (sc : SinCos R) (b : BodyRec R)
    (hk : b.kind = BodyKind.mobilized) (Pos Vel Att AngVel : List R) :
    (BodyRec.update sc b Pos Vel Att AngVel).POSITION = Pos ∧
    (BodyRec.update sc b Pos Vel Att AngVel).VELOCITY = Vel ∧
    (BodyRec.update sc b Pos Vel Att AngVel).ANGLE = Att ∧
    (BodyRec.update sc b Pos Vel Att AngVel).ANGLE_VEL = AngVel ∧
    (BodyRec.update sc b Pos Vel Att AngVel).TBI =
      [[sc.cos (Att.getD 2 0) * sc.cos (Att.getD 1 0),
        sc.sin (Att.getD 2 0) * sc.cos (Att.getD 1 0),
        -sc.sin (Att.getD 1 0)],
       [sc.cos (Att.getD 2 0) * sc.sin (Att.getD 1 0) * sc.sin (Att.getD 0 0) -
          sc.sin (Att.getD 2 0) * sc.cos (Att.getD 0 0),
        sc.sin (Att.getD 2 0) * sc.sin (Att.getD 1 0) * sc.sin (Att.getD 0 0) +
          sc.cos (Att.getD 2 0) * sc.cos (Att.getD 0 0),
        sc.cos (Att.getD 1 0) * sc.sin (Att.getD 0 0)],
       [sc.cos (Att.getD 2 0) * sc.sin (Att.getD 1 0) * sc.cos (Att.getD 0 0) +
          sc.sin (Att.getD 2 0) * sc.sin (Att.getD 0 0),
        sc.sin (Att.getD 2 0) * sc.sin (Att.getD 1 0) * sc.cos (Att.getD 0 0) -
          sc.cos (Att.getD 2 0) * sc.sin (Att.getD 0 0),
        sc.cos (Att.getD 1 0) * sc.cos (Att.getD 0 0)]] ∧
    (BodyRec.update sc b Pos Vel Att AngVel).ACCELERATION = b.ACCELERATION ∧
    (BodyRec.update sc b Pos Vel Att AngVel).ANGLE_ACC = b.ANGLE_ACC ∧
    (BodyRec.update sc b Pos Vel Att AngVel).M = b.M ∧
    (BodyRec.update sc b Pos Vel Att AngVel).FORCE = b.FORCE ∧
    (BodyRec.update sc b Pos Vel Att AngVel).TORQUE = b.TORQUE ∧
    (BodyRec.update sc b Pos Vel Att AngVel).TBI_Q = b.TBI_Q ∧
    (BodyRec.update sc b Pos Vel Att AngVel).TBID_Q = b.TBID_Q := by
  unfold BodyRec.update
  rw [hk]
  exact ⟨rfl, rfl, rfl, rfl, rfl, rfl, rfl, rfl, rfl, rfl, rfl, rfl⟩

/-- Witness for C7: a concrete Mobilized body over ℚ with every field
distinct from its update arguments. -/
theorem C7_witness :
    (BodyRec.update qSC
      ⟨BodyKind.mobilized, [1, 1, 1], [2, 2, 2], [3, 3, 3], [4, 4, 4], [5, 5, 5],
        [6, 6, 6], eyeM 6, [7, 7, 7], [8, 8, 8], eyeM 3, [9, 9, 9, 9], [10, 10, 10]⟩
      [11, 11, 11] [12, 12, 12] [13, 13, 13] [14, 14, 14]).POSITION =
        [(11 : ℚ), 11, 11] ∧
    (BodyRec.update qSC
      ⟨BodyKind.mobilized, [1, 1, 1], [2, 2, 2], [3, 3, 3], [4, 4, 4], [5, 5, 5],
        [6, 6, 6], eyeM 6, [7, 7, 7], [8, 8, 8], eyeM 3, [9, 9, 9, 9], [10, 10, 10]⟩
      [11, 11, 11] [12, 12, 12] [13, 13, 13] [14, 14, 14]).M = eyeM 6 :=
  have h := C7_mobilized_update qSC
    ⟨BodyKind.mobilized, [1, 1, 1], [2, 2, 2], [3, 3, 3], [4, 4, 4], [5, 5, 5],
      [6, 6, 6], eyeM 6, [7, 7, 7], [8, 8, 8], eyeM 3, [9, 9, 9, 9], [10, 10, 10]⟩
    rfl [11, 11, 11] [12, 12, 12] [13, 13, 13] [14, 14, 14]
  ⟨h.1, h.2.2.2.2.2.2.2.1⟩

/--
C8: for every Ground body, update is a no-op — a single call and any finite
sequence of calls with arbitrary arguments leave the state exactly as
constructed — and the constructed state has zero velocity and zero
acceleration, so a Ground body's velocity and acceleration are the zero
3-vector at all times.
-/
theorem C8_ground_update_noop (sc sc2 : SinCos R) (p : List R)
    (ups : List (List R × List R × List R × List R)) :
    (∀ Pos Vel Att AngVel,
      BodyRec.update sc2 (Ground_construct sc p) Pos Vel Att AngVel =
        Ground_construct sc p) ∧
    ups.foldl (fun b u => BodyRec.update sc2 b u.1 u.2.1 u.2.2.1 u.2.2.2)
      (Ground_construct sc p) = Ground_construct sc p ∧
    (Ground_construct sc p).VELOCITY = [0, 0, 0] ∧
    (Ground_construct sc p).ACCELERATION = [0, 0, 0] := by
  refine ⟨fun _ _ _ _ => rfl, ?_, rfl, rfl⟩
  induction ups with
  | nil => rfl
  | cons u rest ih => simpa [List.foldl_cons] using ih

end BodyClaims

section AttitudeMath

/-- A 3x3 double matrix, entries named by their (row, column) index pair. -/
structure Mat33 where
  m00 : ℝ
  m01 : ℝ
  m02 : ℝ
  m10 : ℝ
  m11 : ℝ
  m12 : ℝ
  m20 : ℝ
  m21 : ℝ
  m22 : ℝ

/-- A quaternion as the 4-vector of Math.cpp. -/
structure Quat where
  q0 : ℝ
  q1 : ℝ
  q2 : ℝ
  q3 : ℝ

/-- Quaternion2Matrix (src/src/Math.cpp lines 86-96). -/
def Quaternion2Matrix (Q : Quat) : Mat33 :=
  ⟨2 * (Q.q0 * Q.q0 + Q.q1 * Q.q1) - 1,
   2 * (Q.q1 * Q.q2 + Q.q0 * Q.q3),
   2 * (Q.q1 * Q.q3 - Q.q0 * Q.q2),
   2 * (Q.q1 * Q.q2 - Q.q0 * Q.q3),
   2 * (Q.q0 * Q.q0 + Q.q2 * Q.q2) - 1,
   2 * (Q.q2 * Q.q3 + Q.q0 * Q.q1),
   2 * (Q.q1 * Q.q3 + Q.q0 * Q.q2),
   2 * (Q.q2 * Q.q3 - Q.q0 * Q.q1),
   2 * (Q.q0 * Q.q0 + Q.q3 * Q.q3) - 1⟩

/-- arma::trans on a 3x3 matrix. -/
def Mat33.transpose (A : Mat33) : Mat33 :=
  ⟨A.m00, A.m10, A.m20, A.m01, A.m11, A.m21, A.m02, A.m12, A.m22⟩

/--
Matrix2Quaternion (src/src/Math.cpp lines 43-84): transpose the input,
compute the four absolute squared-component candidates, select the first
index attaining the maximum (arma index_max), and derive the remaining
components from that one.
-/
noncomputable def Matrix2Quaternion (Min : Mat33) : Quat :=
  let B := Min.transpose
  let s0 := |1 + B.m00 + B.m11 + B.m22|
  let s1 := |1 + B.m00 - B.m11 - B.m22|
  let s2 := |1 - B.m00 + B.m11 - B.m22|
  let s3 := |1 - B.m00 - B.m11 + B.m22|
  let mx := max (max (max s0 s1) s2) s3
  if s0 ≥ s1 ∧ s0 ≥ s2 ∧ s0 ≥ s3 then
    let a := (1 / 2) * Real.sqrt mx
    ⟨a, (1 / 4) * (B.m21 - B.m12) / a, (1 / 4) * (B.m02 - B.m20) / a,
      (1 / 4) * (B.m10 - B.m01) / a⟩
  else if s1 ≥ s2 ∧ s1 ≥ s3 then
    let a := (1 / 2) * Real.sqrt mx
    ⟨(1 / 4) * (B.m21 - B.m12) / a, a, (1 / 4) * (B.m10 + B.m01) / a,
      (1 / 4) * (B.m02 + B.m20) / a⟩
  else if s2 ≥ s3 then
    let a := (1 / 2) * Real.sqrt mx
    ⟨(1 / 4) * (B.m02 - B.m20) / a, (1 / 4) * (B.m10 + B.m01) / a, a,
      (1 / 4) * (B.m21 + B.m12) / a⟩
  else
    let a := (1 / 2) * Real.sqrt mx
    ⟨(1 / 4) * (B.m10 - B.m01) / a, (1 / 4) * (B.m20 + B.m02) / a,
      (1 / 4) * (B.m21 + B.m12) / a, a⟩

theorem sqrt_four_sq (x : ℝ) : Real.sqrt (4 * x ^ 2) = 2 * |x| := by
  rw [show (4 : ℝ) * x ^ 2 = (2 * |x|) ^ 2 by rw [mul_pow, sq_abs]; ring]
  exact Real.sqrt_sq (by positivity)

theorem roundtrip_exact (Q : Quat)
    (hq : Q.q0 ^ 2 + Q.q1 ^ 2 + Q.q2 ^ 2 + Q.q3 ^ 2 = 1) :
    Matrix2Quaternion (Quaternion2Matrix Q) = Q ∨
    Matrix2Quaternion (Quaternion2Matrix Q) = ⟨-Q.q0, -Q.q1, -Q.q2, -Q.q3⟩ := by
  obtain ⟨a, b, c, d⟩ := Q
  simp only at hq
  unfold Matrix2Quaternion Quaternion2Matrix Mat33.transpose
  simp only
  have e0 : |1 + (2 * (a * a + b * b) - 1) + (2 * (a * a + c * c) - 1) +
      (2 * (a * a + d * d) - 1)| = 4 * a ^ 2 := by
    rw [show 1 + (2 * (a * a + b * b) - 1) + (2 * (a * a + c * c) - 1) +
      (2 * (a * a + d * d) - 1) = 4 * a ^ 2 by nlinarith [hq]]
    exact abs_of_nonneg (by positivity)
  have e1 : |1 + (2 * (a * a + b * b) - 1) - (2 * (a * a + c * c) - 1) -
      (2 * (a * a + d * d) - 1)| = 4 * b ^ 2 := by
    rw [show 1 + (2 * (a * a + b * b) - 1) - (2 * (a * a + c * c) - 1) -
      (2 * (a * a + d * d) - 1) = 4 * b ^ 2 by nlinarith [hq]]
    exact abs_of_nonneg (by positivity)
  have e2 : |1 - (2 * (a * a + b * b) - 1) + (2 * (a * a + c * c) - 1) -
      (2 * (a * a + d * d) - 1)| = 4 * c ^ 2 := by
    rw [show 1 - (2 * (a * a + b * b) - 1) + (2 * (a * a + c * c) - 1) -
      (2 * (a * a + d * d) - 1) = 4 * c ^ 2 by nlinarith [hq]]
    exact abs_of_nonneg (by positivity)
  have e3 : |1 - (2 * (a * a + b * b) - 1) - (2 * (a * a + c * c) - 1) +
      (2 * (a * a + d * d) - 1)| = 4 * d ^ 2 := by
    rw [show 1 - (2 * (a * a + b * b) - 1) - (2 * (a * a + c * c) - 1) +
      (2 * (a * a + d * d) - 1) = 4 * d ^ 2 by nlinarith [hq]]
    exact abs_of_nonneg (by positivity)
  rw [e0, e1, e2, e3]
  by_cases h1 : 4 * a ^ 2 ≥ 4 * b ^ 2 ∧ 4 * a ^ 2 ≥ 4 * c ^ 2 ∧ 4 * a ^ 2 ≥ 4 * d ^ 2
  · rw [if_pos h1]
    have hmx : (4 * a ^ 2 ⊔ 4 * b ^ 2 ⊔ 4 * c ^ 2 ⊔ 4 * d ^ 2) = 4 * a ^ 2 := by
      rw [max_eq_left h1.1, max_eq_left h1.2.1, max_eq_left h1.2.2]
    rw [hmx, sqrt_four_sq]
    have ha2 : 1 ≤ 4 * a ^ 2 := by nlinarith [h1.1, h1.2.1, h1.2.2, hq]
    have ha : a ≠ 0 := by intro h; rw [h] at ha2; norm_num at ha2
    rcases lt_or_gt_of_ne ha with hneg | hpos
    · right
      rw [abs_of_neg hneg, show (1 / 2 : ℝ) * (2 * -a) = -a from by ring]
      have hna : -a ≠ 0 := neg_ne_zero.2 ha
      simp only [Quat.mk.injEq]
      refine ⟨trivial, ?_, ?_, ?_⟩ <;> (rw [div_eq_iff hna]; ring)
    · left
      rw [abs_of_pos hpos, show (1 / 2 : ℝ) * (2 * a) = a from by ring]
      simp only [Quat.mk.injEq]
      refine ⟨trivial, ?_, ?_, ?_⟩ <;> (rw [div_eq_iff ha]; ring)
  · rw [if_neg h1]
    by_cases h2 : 4 * b ^ 2 ≥ 4 * c ^ 2 ∧ 4 * b ^ 2 ≥ 4 * d ^ 2
    · rw [if_pos h2]
      have hba : 4 * a ^ 2 ≤ 4 * b ^ 2 := by
        by_contra hcon
        push_neg at hcon
        exact h1 ⟨by linarith, by linarith [h2.1], by linarith [h2.2]⟩
      have hmx : (4 * a ^ 2 ⊔ 4 * b ^ 2 ⊔ 4 * c ^ 2 ⊔ 4 * d ^ 2) = 4 * b ^ 2 := by
        rw [max_eq_right hba, max_eq_left h2.1, max_eq_left h2.2]
      rw [hmx, sqrt_four_sq]
      have hb2 : 1 ≤ 4 * b ^ 2 := by nlinarith [hba, h2.1, h2.2, hq]
      have hb : b ≠ 0 := by intro h; rw [h] at hb2; norm_num at hb2
      rcases lt_or_gt_of_ne hb with hneg | hpos
      · right
        rw [abs_of_neg hneg, show (1 / 2 : ℝ) * (2 * -b) = -b from by ring]
        have hnb : -b ≠ 0 := neg_ne_zero.2 hb
        simp only [Quat.mk.injEq]
        refine ⟨?_, trivial, ?_, ?_⟩ <;> (rw [div_eq_iff hnb]; ring)
      · left
        rw [abs_of_pos hpos, show (1 / 2 : ℝ) * (2 * b) = b from by ring]
        simp only [Quat.mk.injEq]
        refine ⟨?_, trivial, ?_, ?_⟩ <;> (rw [div_eq_iff hb]; ring)
    · rw [if_neg h2]
      by_cases h3 : 4 * c ^ 2 ≥ 4 * d ^ 2
      · rw [if_pos h3]
        have hcb : 4 * b ^ 2 ≤ 4 * c ^ 2 := by
          by_contra hcon
          push_neg at hcon
          exact h2 ⟨by linarith, by linarith [h3]⟩
        have hca : 4 * a ^ 2 ≤ 4 * c ^ 2 := by
          by_contra hcon
          push_neg at hcon
          exact h1 ⟨by linarith [hcb], by linarith, by linarith [h3]⟩
        have hmx : (4 * a ^ 2 ⊔ 4 * b ^ 2 ⊔ 4 * c ^ 2 ⊔ 4 * d ^ 2) = 4 * c ^ 2 := by
          rw [max_eq_right (max_le hca hcb), max_eq_left h3]
        rw [hmx, sqrt_four_sq]
        have hc2 : 1 ≤ 4 * c ^ 2 := by nlinarith [hca, hcb, h3, hq]
        have hc : c ≠ 0 := by intro h; rw [h] at hc2; norm_num at hc2
        rcases lt_or_gt_of_ne hc with hneg | hpos
        · right
          rw [abs_of_neg hneg, show (1 / 2 : ℝ) * (2 * -c) = -c from by ring]
          have hnc : -c ≠ 0 := neg_ne_zero.2 hc
          simp only [Quat.mk.injEq]
          refine ⟨?_, ?_, trivial, ?_⟩ <;> (rw [div_eq_iff hnc]; ring)
        · left
          rw [abs_of_pos hpos, show (1 / 2 : ℝ) * (2 * c) = c from by ring]
          simp only [Quat.mk.injEq]
          refine ⟨?_, ?_, trivial, ?_⟩ <;> (rw [div_eq_iff hc]; ring)
      · rw [if_neg h3]
        push_neg at h3
        have hdc : 4 * c ^ 2 ≤ 4 * d ^ 2 := le_of_lt h3
        have hdb : 4 * b ^ 2 ≤ 4 * d ^ 2 := by
          by_contra hcon
          push_neg at hcon
          exact h2 ⟨by linarith [hdc], by linarith⟩
        have hda : 4 * a ^ 2 ≤ 4 * d ^ 2 := by
          by_contra hcon
          push_neg at hcon
          exact h1 ⟨by linarith [hdb], by linarith [hdc], by linarith⟩
        have hmx : (4 * a ^ 2 ⊔ 4 * b ^ 2 ⊔ 4 * c ^ 2 ⊔ 4 * d ^ 2) = 4 * d ^ 2 := by
          rw [max_eq_right (max_le (max_le hda hdb) hdc)]
        rw [hmx, sqrt_four_sq]
        have hd2 : 1 ≤ 4 * d ^ 2 := by nlinarith [hda, hdb, hdc, hq]
        have hd : d ≠ 0 := by intro h; rw [h] at hd2; norm_num at hd2
        rcases lt_or_gt_of_ne hd with hneg | hpos
        · right
          rw [abs_of_neg hneg, show (1 / 2 : ℝ) * (2 * -d) = -d from by ring]
          have hnd : -d ≠ 0 := neg_ne_zero.2 hd
          simp only [Quat.mk.injEq]
          refine ⟨?_, ?_, ?_, trivial⟩ <;> (rw [div_eq_iff hnd]; ring)
        · left
          rw [abs_of_pos hpos, show (1 / 2 : ℝ) * (2 * d) = d from by ring]
          simp only [Quat.mk.injEq]
          refine ⟨?_, ?_, ?_, trivial⟩ <;> (rw [div_eq_iff hd]; ring)

/--
C9: for every unit quaternion, converting it to a rotation matrix with
Quaternion2Matrix and converting that matrix back with Matrix2Quaternion
yields either the original quaternion or its negation (round-trip identity up
to sign), each component within 1e-10 (the round trip is in fact exact in
real arithmetic).
-/
theorem C9_quaternion_roundtrip (Q : Quat)
    (hq : Q.q0 ^ 2 + Q.q1 ^ 2 + Q.q2 ^ 2 + Q.q3 ^ 2 = 1) :
    ∃ s : ℝ, (s = 1 ∨ s = -1) ∧
      |(Matrix2Quaternion (Quaternion2Matrix Q)).q0 - s * Q.q0| ≤ 1e-10 ∧
      |(Matrix2Quaternion (Quaternion2Matrix Q)).q1 - s * Q.q1| ≤ 1e-10 ∧
      |(Matrix2Quaternion (Quaternion2Matrix Q)).q2 - s * Q.q2| ≤ 1e-10 ∧
      |(Matrix2Quaternion (Quaternion2Matrix Q)).q3 - s * Q.q3| ≤ 1e-10 := by
  rcases roundtrip_exact Q hq with h | h
  · refine ⟨1, Or.inl rfl, ?_, ?_, ?_, ?_⟩ <;> rw [h] <;> norm_num
  · refine ⟨-1, Or.inr rfl, ?_, ?_, ?_, ?_⟩ <;> rw [h] <;> norm_num

/-- Witness for C9 at the identity quaternion (1, 0, 0, 0). -/
theorem C9_witness :
    ∃ s : ℝ, (s = 1 ∨ s = -1) ∧
      |(Matrix2Quaternion (Quaternion2Matrix ⟨1, 0, 0, 0⟩)).q0 - s * 1| ≤ 1e-10 ∧
      |(Matrix2Quaternion (Quaternion2Matrix ⟨1, 0, 0, 0⟩)).q1 - s * 0| ≤ 1e-10 ∧
      |(Matrix2Quaternion (Quaternion2Matrix ⟨1, 0, 0, 0⟩)).q2 - s * 0| ≤ 1e-10 ∧
      |(Matrix2Quaternion (Quaternion2Matrix ⟨1, 0, 0, 0⟩)).q3 - s * 0| ≤ 1e-10 :=
  C9_quaternion_roundtrip ⟨1, 0, 0, 0⟩ (by norm_num)

end AttitudeMath

end MBD
